import Mathlib

/-!
Verification of the Toxella worker (`src/worker/index.js`, the current
revision before the related-document separator): the report
normalization / scoring engine (`clamp`, `tacticScore`, `riskLabel`,
`normalizeReport`, `RISK_WEIGHTS`), the purge helper (`purgeImages`) and
the Pub/Sub dispatch endpoint (`app.post('/_pubsub/analyze')`).

Embedding conventions:
* JavaScript values that can reach the engine are the values produced by
  `JSON.parse` — `null`, booleans, numbers, strings, arrays, objects —
  modelled by `JVal`.  Absent-property access yields `undefined` in JS;
  every place this code distinguishes values uses `??`, `||`, truthiness
  or `typeof`, none of which separates `undefined` from `null`, so both
  are modelled by `JVal.null`.
* JS numbers are modelled exactly as rationals extended with the IEEE
  specials `NaN` and `±Infinity` (`JsNum`); the float64 rounding of
  literals and of arithmetic is not modelled.  `NaN` produced by
  `Number(...)` coercion of non-numeric values is modelled faithfully,
  since the engine's clamping behaviour on it is observable.
* Strings are Lean strings; JS counts UTF-16 units where Lean counts
  code points, a discrepancy only visible beyond the BMP.
-/

namespace Toxella

/-- A JavaScript value as produced by `JSON.parse` (see module comment:
`undefined` is identified with `null`). -/
inductive JVal where
  | null
  | bool (b : Bool)
  | num (q : ℚ)
  | str (s : String)
  | arr (xs : List JVal)
  | obj (fs : List (String × JVal))

/-- Is this value `null` (or `undefined`, identified with it)? -/
def JVal.isNull : JVal → Bool
  | .null => true
  | _ => false

/-- A JS number: a finite value, `NaN`, or `±Infinity`. -/
inductive JsNum where
  | nan
  | inf (pos : Bool)
  | fin (q : ℚ)
  deriving DecidableEq

namespace JsNum

/-- JS addition on numbers. -/
def jadd : JsNum → JsNum → JsNum
  | nan, _ => nan
  | _, nan => nan
  | inf p, inf q => if p = q then inf p else nan
  | inf p, fin _ => inf p
  | fin _, inf q => inf q
  | fin a, fin b => fin (a + b)

/-- JS negation on numbers. -/
def jneg : JsNum → JsNum
  | nan => nan
  | inf p => inf (!p)
  | fin a => fin (-a)

/-- JS subtraction on numbers. -/
def jsub (a b : JsNum) : JsNum := jadd a (jneg b)

/-- JS multiplication on numbers (`Infinity * 0 = NaN`). -/
def jmul : JsNum → JsNum → JsNum
  | nan, _ => nan
  | _, nan => nan
  | inf p, inf q => inf (p = q)
  | inf p, fin b => if b = 0 then nan else inf (p = decide (0 < b))
  | fin a, inf q => if a = 0 then nan else inf (q = decide (0 < a))
  | fin a, fin b => fin (a * b)

/-- JS division on numbers (`x / 0 = ±Infinity`, `0 / 0 = NaN`). -/
def jdiv : JsNum → JsNum → JsNum
  | nan, _ => nan
  | _, nan => nan
  | inf _, inf _ => nan
  | inf p, fin b => inf (p = decide (0 ≤ b))
  | fin _, inf _ => fin 0
  | fin a, fin b =>
      if b = 0 then (if a = 0 then nan else inf (decide (0 < a))) else fin (a / b)

/-- JS `Math.min` on two numbers (`NaN` wins). -/
def jmin : JsNum → JsNum → JsNum
  | nan, _ => nan
  | _, nan => nan
  | inf true, b => b
  | a, inf true => a
  | inf false, _ => inf false
  | _, inf false => inf false
  | fin a, fin b => fin (min a b)

/-- JS `Math.max` on two numbers (`NaN` wins). -/
def jmax : JsNum → JsNum → JsNum
  | nan, _ => nan
  | _, nan => nan
  | inf false, b => b
  | a, inf false => a
  | inf true, _ => inf true
  | _, inf true => inf true
  | fin a, fin b => fin (max a b)

/-- JS `Math.round` on a finite value: round half toward `+Infinity`,
which is `⌊x + 1/2⌋` for every finite `x`. -/
def jsRound (a : ℚ) : ℤ := ⌊a + 1/2⌋

/-- JS `Math.round`. -/
def jround : JsNum → JsNum
  | nan => nan
  | inf p => inf p
  | fin a => fin (jsRound a : ℤ)

/-- JS `<` against a finite constant (`false` on `NaN`). -/
def jlt (a : JsNum) (c : ℚ) : Bool :=
  match a with
  | nan => false
  | inf p => !p
  | fin x => decide (x < c)

/-- JS `<=` against a finite constant (`false` on `NaN`). -/
def jle (a : JsNum) (c : ℚ) : Bool :=
  match a with
  | nan => false
  | inf p => !p
  | fin x => decide (x ≤ c)

/-- JS `> 0` (`false` on `NaN`). -/
def jgt0 : JsNum → Bool
  | nan => false
  | inf p => p
  | fin x => decide (0 < x)

/-- JS number truthiness: `0` and `NaN` are falsy. -/
def jtruthy : JsNum → Bool
  | nan => false
  | inf _ => true
  | fin x => decide (x ≠ 0)

/-- `n` is a finite value lying in `[lo, hi]`. -/
def inRange (n : JsNum) (lo hi : ℚ) : Prop :=
  ∃ q : ℚ, n = fin q ∧ lo ≤ q ∧ q ≤ hi

/-- `n` is an integer lying in `[lo, hi]`. -/
def isIntBetween (n : JsNum) (lo hi : ℤ) : Prop :=
  ∃ k : ℤ, n = fin (k : ℚ) ∧ lo ≤ k ∧ k ≤ hi

end JsNum

/-! ### String-to-number coercion (`Number(...)` on strings) -/

/-- Consume a run of decimal digits, returning their values and the rest. -/
def takeDigits : List Char → List Nat × List Char
  | c :: cs =>
      if c.isDigit then
        let (ds, rest) := takeDigits cs
        ((c.toNat - '0'.toNat) :: ds, rest)
      else ([], c :: cs)
  | [] => ([], [])

/-- The natural number written by a digit run (most significant first). -/
def natOfDigits (ds : List Nat) : Nat := ds.foldl (fun a d => 10 * a + d) 0

/-- The fractional value written by a digit run after the decimal point. -/
def fracOfDigits (ds : List Nat) : ℚ := ds.foldr (fun d a => ((d : ℚ) + a) / 10) 0

/-- Parse `DecimalDigits . DecimalDigits? | . DecimalDigits | DecimalDigits`. -/
def parseMantissa (cs : List Char) : Option (ℚ × List Char) :=
  let (ip, rest) := takeDigits cs
  match rest with
  | '.' :: rest2 =>
      let (fp, rest3) := takeDigits rest2
      if ip.isEmpty ∧ fp.isEmpty then none
      else some ((natOfDigits ip : ℚ) + fracOfDigits fp, rest3)
  | _ => if ip.isEmpty then none else some ((natOfDigits ip : ℚ), rest)

/-- Parse an exponent body: optional sign, then mandatory digits. -/
def parseExp (cs : List Char) : Option (ℤ × List Char) :=
  match cs with
  | '+' :: cs2 =>
      let (ds, r) := takeDigits cs2
      if ds.isEmpty then none else some ((natOfDigits ds : ℤ), r)
  | '-' :: cs2 =>
      let (ds, r) := takeDigits cs2
      if ds.isEmpty then none else some (-(natOfDigits ds : ℤ), r)
  | _ =>
      let (ds, r) := takeDigits cs
      if ds.isEmpty then none else some ((natOfDigits ds : ℤ), r)

/-- Parse an unsigned JS numeric string: `Infinity` or a decimal literal
with optional fraction and exponent.  (Hex/octal/binary literals are not
modelled; they would coerce to values the engine treats like any other
finite number, and no claim involves them.) -/
def parseUnsigned (cs : List Char) : Option JsNum :=
  if String.mk cs = "Infinity" then some (.inf true)
  else
    match parseMantissa cs with
    | none => none
    | some (m, rest) =>
      match rest with
      | [] => some (.fin m)
      | 'e' :: rest2 =>
          match parseExp rest2 with
          | some (k, []) => some (.fin (m * (10 : ℚ) ^ k))
          | _ => none
      | 'E' :: rest2 =>
          match parseExp rest2 with
          | some (k, []) => some (.fin (m * (10 : ℚ) ^ k))
          | _ => none
      | _ => none

/-- A JS `StrWhiteSpace` character (ASCII whitespace, NBSP, BOM and the
Unicode line/paragraph separators; other exotic space separators are
omitted). -/
def isJsWs (c : Char) : Bool :=
  c = ' ' || c = '\t' || c = '\n' || c = '\r' ||
  c = '\x0b' || c = '\x0c' || c = '\u00A0' || c = '\uFEFF' ||
  c = '\u2028' || c = '\u2029'

/-- JS whitespace trimming (`String.prototype.trim` and the implicit trim
of `Number(string)` use the same character class). -/
def jsTrim (s : String) : List Char :=
  ((s.toList.dropWhile isJsWs).reverse.dropWhile isJsWs).reverse

/-- JS `Number(s)` for a string: trim whitespace, empty means `0`,
otherwise a signed numeric literal, otherwise `NaN`. -/
def parseNum (s : String) : JsNum :=
  match jsTrim s with
  | [] => .fin 0
  | '+' :: cs => (parseUnsigned cs).getD .nan
  | '-' :: cs =>
      match parseUnsigned cs with
      | some n => n.jneg
      | none => .nan
  | cs => (parseUnsigned cs).getD .nan

/-! ### Value conversions -/

/-- JS number-to-string.  Integers print exactly as JS prints them; for
non-integers JS prints a decimal expansion of the underlying float64,
which has no exact rational counterpart, so a `num/den` stand-in is
used.  Either way the result is never one of the (alphabetic) taxonomy
ids, which is all the engine compares this string against. -/
def numToString (q : ℚ) : String :=
  if q.den = 1 then toString q.num else toString q.num ++ "/" ++ toString q.den

mutual

/-- JS string conversion `String(v)` / `v.toString()` for the values in
`JVal` (`.toString()` is only reached on truthy values in this code, so
the `null` row is unobservable). -/
def jsToString : JVal → String
  | .null => "null"
  | .bool b => if b then "true" else "false"
  | .num q => numToString q
  | .str s => s
  | .arr xs => String.intercalate "," (jsToStringElems xs)
  | .obj _ => "[object Object]"

/-- Array elements joined by `,`; `null`/`undefined` elements print as
the empty string. -/
def jsToStringElems : List JVal → List String
  | [] => []
  | x :: xs =>
      (match x with
       | .null => ""
       | _ => jsToString x) :: jsToStringElems xs

end

/-- JS `Number(v)` coercion.  An array converts via its joined string
form: `[]` gives `0`, a singleton converts like its element's string,
and two or more elements always produce a comma, hence `NaN`. -/
def toNum : JVal → JsNum
  | .null => .fin 0
  | .bool b => .fin (if b then 1 else 0)
  | .num q => .fin q
  | .str s => parseNum s
  | .arr [] => .fin 0
  | .arr [x] =>
      match x with
      | .null => .fin 0
      | _ => parseNum (jsToString x)
  | .arr (_ :: _ :: _) => .nan
  | .obj _ => .nan

/-- JS truthiness of a `JVal` (`NaN` cannot occur in a parsed value). -/
def truthy : JVal → Bool
  | .null => false
  | .bool b => b
  | .num q => decide (q ≠ 0)
  | .str s => decide (s ≠ "")
  | .arr _ => true
  | .obj _ => true

/-- JS `v || w`. -/
def jsOr (v w : JVal) : JVal := if truthy v then v else w

/-- JS `v ?? w` (`undefined` identified with `null`). -/
def jsCoalesce (v w : JVal) : JVal := if v.isNull then w else v

/-- Property lookup in an object's field list (field lists are assumed
duplicate-free, as `JSON.parse` keeps one binding per key). -/
def getField : List (String × JVal) → String → JVal
  | [], _ => .null
  | (k', v) :: rest, k => if k' = k then v else getField rest k

/-- JS property access `v.k` / `v?.k`, yielding `null` (for
`undefined`) when the receiver is not an object with that key.  The one
property this code reads from non-objects is `length`, handled by
`lengthProp`. -/
def JVal.get : JVal → String → JVal
  | .obj fs, k => getField fs k
  | _, _ => .null

/-- JS `v?.length` for the value classes in `JVal`: arrays and strings
have a numeric `length`, objects may carry one as an ordinary field,
everything else gives `undefined`. -/
def lengthProp : JVal → JVal
  | .arr xs => .num xs.length
  | .str s => .num s.length
  | .obj fs => getField fs "length"
  | _ => .null

/-! ### The `clamp` helper (`clamp(n, lo, hi)` in the source), at the two
argument types it is applied to: raw `JVal` fields, and already-numeric
fields of a normalized tactic.  `n = Number(n || 0)` sends every falsy
value — including `NaN` — to `0` before clamping. -/

/-- `clamp` on a raw JS value. -/
def clampV (v : JVal) (lo hi : ℚ) : JsNum :=
  JsNum.jmax (.fin lo) (JsNum.jmin (.fin hi) (if truthy v then toNum v else .fin 0))

/-- `clamp` on a JS number. -/
def clampN (n : JsNum) (lo hi : ℚ) : JsNum :=
  JsNum.jmax (.fin lo) (JsNum.jmin (.fin hi) (if n.jtruthy then n else .fin 0))

/-! ### The 12-tactic scoring engine -/

/-- `TACTIC_IDS` from the source. -/
def TACTIC_IDS : List String :=
  ["gaslighting", "darvo", "blame-shifting", "minimization", "stonewalling",
   "contempt", "guilt-tripping", "threats", "coercion", "triangulation",
   "boundaries", "projection"]

/-- `RISK_WEIGHTS` from the source. -/
def RISK_WEIGHTS : List (String × ℚ) :=
  [("threats", 1.40), ("coercion", 1.30), ("gaslighting", 1.20), ("darvo", 1.10),
   ("blame-shifting", 1.00), ("minimization", 1.00), ("stonewalling", 0.95),
   ("contempt", 1.05), ("guilt-tripping", 1.00), ("triangulation", 1.00),
   ("boundaries", 1.00), ("projection", 1.00)]

/-- `RISK_WEIGHTS[id] || 1.0`: a missing entry — and a falsy (zero) one,
though none exists — falls back to `1.0`. -/
def weightOf (id : String) : ℚ :=
  match RISK_WEIGHTS.lookup id with
  | some w => if w = 0 then 1 else w
  | none => 1

/-- A normalized tactic entry (the object built per supplied tactic in
`normalizeReport`; `contribution_pct` is assigned by the later loop and
initialized to `0` here, a value that is always overwritten). -/
structure Tactic where
  id : String
  name : JVal
  likelihood : JsNum
  severity : JsNum
  frequency : JsNum
  examples : List JVal
  score : JsNum
  contribution_pct : JsNum

/-- `tacticScore(t)` from the source, applied — as in the source — to the
already-normalized tactic object, whose numeric fields are numbers; at
this type `t.frequency ?? (t.examples?.length || 0)` is just
`t.frequency` (the field is always present) and `Number` of a number is
the identity.  Note that `clamp` collapses a `NaN` likelihood/severity
to the lower bound, while a `NaN` frequency propagates. -/
def tacticScore (t : Tactic) : JsNum :=
  let p := clampN t.likelihood 0 1
  let s := clampN t.severity 1 5
  let f := JsNum.jmin (.fin 5) t.frequency
  JsNum.jround
    (JsNum.jadd
      (JsNum.jadd (JsNum.jmul (.fin 40) p)
        (JsNum.jmul (.fin 35) (JsNum.jdiv (JsNum.jsub s (.fin 1)) (.fin 4))))
      (JsNum.jmul (.fin 25) (JsNum.jmin (.fin 1) (JsNum.jdiv f (.fin 5)))))

/-- `riskLabel(score)` from the source (on a `NaN` score both comparisons
are false, so the result is `"high"`). -/
def riskLabel (score : JsNum) : String :=
  if score.jlt 34 then "low" else if score.jle 66 then "medium" else "high"

/-- A JS `\w` character. -/
def isWordChar (c : Char) : Bool := c.isAlphanum || c = '_'

/-- The global replacement `id.replace(/(^|[-_])(\w)/g, ...)` applied
past the first position: each non-overlapping `[-_]` + word-char pair
becomes a space plus the upper-cased character. -/
def upRest : List Char → List Char
  | c :: d :: rest =>
      if (c = '-' || c = '_') && isWordChar d then ' ' :: d.toUpper :: upRest rest
      else c :: upRest (d :: rest)
  | l => l

/-- The display-name derivation
`id.replace(/(^|[-_])(\w)/g, (_,a,b)=> (a?" ":"") + b.toUpperCase())`:
title-cases a lower-cased id, turning `-`/`_` separators into spaces. -/
def titleCase (s : String) : String :=
  match s.toList with
  | [] => ""
  | c :: rest =>
      if isWordChar c then String.mk (c.toUpper :: upRest rest)
      else String.mk (upRest (c :: rest))

/-- ASCII lower-casing (`String.prototype.toLowerCase`; the taxonomy ids
this feeds are ASCII). -/
def toLowerStr (s : String) : String := String.mk (s.toList.map Char.toLower)

/-- The object literal built for one (non-null) supplied tactic entry,
before `obj.score = tacticScore(obj)` runs (`score` still `0`). -/
def mkTacticBase (t : JVal) : Tactic :=
  let id := toLowerStr (jsToString (jsOr (t.get "id") (jsOr (t.get "name") (.str ""))))
  { id := if id ≠ "" && TACTIC_IDS.contains id then id else "other"
    name := jsOr (t.get "name") (.str (if id = "" then "Other" else titleCase id))
    likelihood := clampV (jsCoalesce (t.get "likelihood") (jsCoalesce (t.get "p") (.num 0))) 0 1
    severity := clampV (jsCoalesce (t.get "severity") (.num 3)) 1 5
    frequency :=
      JsNum.jmax (.fin 0) (JsNum.jmin (.fin 5)
        (toNum (jsCoalesce (t.get "frequency") (jsOr (lengthProp (t.get "examples")) (.num 0)))))
    examples := match t.get "examples" with | .arr xs => xs.take 5 | _ => []
    score := .fin 0
    contribution_pct := .fin 0 }

/-- The normalized tactic for one non-null entry. -/
def mkTactic (t : JVal) : Tactic :=
  { mkTacticBase t with score := tacticScore (mkTacticBase t) }

/-- Normalization of one supplied tactic entry (the body of the
`list.map(t => ...)` in `normalizeReport`).  A `null` (or `undefined`)
entry makes the property access `t.id` throw a `TypeError`, modelled by
`none`. -/
def normalizeTactic (t : JVal) : Option Tactic :=
  if t.isNull then none else some (mkTactic t)

/-- `Array.isArray(raw.tactics) ? raw.tactics : []`. -/
def tacticsListOf (raw : JVal) : List JVal :=
  match raw.get "tactics" with
  | .arr xs => xs
  | _ => []

/-- The `list.map(...)` over supplied tactic entries; throws (yields
`none`) as soon as one entry is `null`. -/
def normalizeTactics : List JVal → Option (List Tactic)
  | [] => some []
  | t :: ts =>
      match normalizeTactic t with
      | none => none
      | some nt =>
          match normalizeTactics ts with
          | none => none
          | some nts => some (nt :: nts)

/-- `Array.isArray` as a partial projection. -/
def asArray : JVal → Option (List JVal)
  | .arr xs => some xs
  | _ => none

/-- The receipts extraction: a flat `receipts` array, else a nested
`receipts.highlights` array, else empty; capped at 30. -/
def receiptsOf (raw : JVal) : List JVal :=
  match asArray (raw.get "receipts") with
  | some xs => xs.take 30
  | none =>
      match asArray ((raw.get "receipts").get "highlights") with
      | some ys => ys.take 30
      | none => []

/-- The confidence computation `clamp(raw.confidence ?? 0.85, 0, 1)`. -/
def confBase (raw : JVal) : JsNum :=
  clampV (jsCoalesce (raw.get "confidence") (.num 0.85)) 0 1

/-- The narrative pass-through: kept only when a string with non-blank
content. -/
def narrativeOf (raw : JVal) : Option String :=
  match raw.get "narrative_md" with
  | .str s => if jsTrim s ≠ [] then some s else none
  | _ => none

/-- The canonical report produced by `normalizeReport`. -/
structure Report where
  risk_score : JsNum
  risk_label : JVal
  confidence : JsNum
  tactics : List Tactic
  receipts : List JVal
  kpis : JVal
  narrative_md : Option String

/-- `out.tactics.length ? out.tactics : [{ id:"other", score:0 }]`,
reduced to the two fields the risk loop reads. -/
def seenOf (nts : List Tactic) : List (String × JsNum) :=
  match nts with
  | [] => [("other", .fin 0)]
  | _ => nts.map fun t => (t.id, t.score)

/-- One iteration of the risk loop, accumulating
`(num, den, sumWeightScore)`.  `den` is an ordinary number that can
never be `NaN`. -/
def riskStep (a : JsNum × ℚ × JsNum) (p : String × JsNum) : JsNum × ℚ × JsNum :=
  (JsNum.jadd a.1 (JsNum.jmul (JsNum.jdiv p.2 (.fin 100)) (.fin (weightOf p.1))),
   a.2.1 + weightOf p.1,
   JsNum.jadd a.2.2 (JsNum.jmul p.2 (.fin (weightOf p.1))))

/-- The whole risk loop. -/
def riskAcc (seen : List (String × JsNum)) : JsNum × ℚ × JsNum :=
  seen.foldl riskStep ((.fin 0 : JsNum), (0 : ℚ), (.fin 0 : JsNum))

/-- `Math.round(100 * (den ? num/den : 0))`. -/
def riskOf (acc : JsNum × ℚ × JsNum) : JsNum :=
  JsNum.jround (JsNum.jmul (.fin 100)
    (if acc.2.1 ≠ 0 then JsNum.jdiv acc.1 (.fin acc.2.1) else .fin 0))

/-- The per-tactic contribution assignment:
`sumWeightScore > 0 ? Math.round((score*weight / sumWeightScore) * 1000)/10 : 0`. -/
def contribOf (sws : JsNum) (t : Tactic) : JsNum :=
  if sws.jgt0 then
    JsNum.jdiv
      (JsNum.jround (JsNum.jmul
        (JsNum.jdiv (JsNum.jmul t.score (.fin (weightOf t.id))) sws)
        (.fin 1000)))
      (.fin 10)
  else .fin 0

/-- `normalizeReport(raw)` from the source.  `none` models a thrown
`TypeError`: property access on a `null` receiver, which happens exactly
when `raw` itself or one of the entries of its `tactics` array is
`null`/`undefined`.  The risk loop folds `num`, `den` and
`sumWeightScore` in one pass, as the source does. -/
def normalizeReport (raw : JVal) : Option Report :=
  if raw.isNull then none
  else
    match normalizeTactics (tacticsListOf raw) with
    | none => none
    | some nts =>
      let acc := riskAcc (seenOf nts)
      let risk := riskOf acc
      some
        { risk_score := risk
          risk_label :=
            if truthy (raw.get "risk_label") then raw.get "risk_label"
            else .str (riskLabel risk)
          confidence := confBase raw
          tactics := nts.map fun t => { t with contribution_pct := contribOf acc.2.2 t }
          receipts := receiptsOf raw
          kpis := if truthy (raw.get "kpis") then raw.get "kpis" else .obj []
          narrative_md := narrativeOf raw }

/-! ### The Pub/Sub dispatch endpoint (`app.post('/_pubsub/analyze')`)

The document store (Firestore `jobs`/`reports` collections) is outside
the spec's scope and is modelled as synchronous state: reads consult a
fixed map, writes always take effect and are reflected in the result
record.  The fallible external work is oracle-driven through `Env`:
the classification call (whose success carries the `JVal` produced by
`extractJson`, a total function — any parse failure yields `{}`) and
the per-file object-store deletions.  One `Call.ocrCall` trace entry
covers `sharp` preprocessing plus the Vision call for a file, since
they run in one per-file `try` block. -/

/-- Plan limits (`FREE_MAX`, `PRO_MAX`). -/
structure Config where
  freeMax : Nat
  proMax : Nat

/-- `maxForPlan(plan)`: `'pro'` gets `PRO_MAX`, anything else `FREE_MAX`. -/
def maxForPlan (cfg : Config) (plan : String) : Nat :=
  if plan = "pro" then cfg.proMax else cfg.freeMax

/-- The job document fields the worker reads (`f.path` is the only file
field it uses). -/
structure JobDoc where
  plan : String
  files : List String
  userId : Option String
  instructions : Option String
  status : String

/-- Outcome of one object-store deletion issued with
`{ ignoreNotFound: true }`: not-found is swallowed by the client, so
only `fail` rejects. -/
inductive DelOutcome where
  | ok
  | notFound
  | fail
  deriving DecidableEq

/-- Oracles for the external calls a single handler run makes.  The
per-file preprocessing+OCR calls appear in the trace but carry no oracle
here: each is wrapped in its own `try`/`catch` whose only effect is
which text reaches classification, and `classify` abstracts over the
entire `analyzeWithOpenAI(text)` outcome — a thrown error, or the `JVal`
that `extractJson` built from the response. -/
structure Env where
  classify : Except String JVal
  del : String → DelOutcome

/-- Externally visible calls of one handler run, in order. -/
inductive Call where
  | jobUpdate (status : String)
  | ocrCall (path : String)
  | classifyCall
  | reportSet
  | delCall (path : String)
  | reportUpdate
  deriving DecidableEq

/-- The job's `error` field: either the `{code, message}` object of the
validation path or the truncated diagnostic string of the catch-all. -/
inductive JobError where
  | coded (code msg : String)
  | plain (s : String)
  deriving DecidableEq

/-- Final state of the job record after the run. -/
structure JobFinal where
  status : String
  error : Option JobError
  warn : Option String
  reportId : Option String
  deriving DecidableEq

/-- Final state of the report document, if one was written. -/
structure ReportDoc where
  reportId : String
  userId : Option String
  jobId : String
  json : Report
  images_deleted : Bool

/-- The decoded inbound message: no `message.data` at all; a payload
whose decode throws or yields no job id; or a job id. -/
inductive MsgCase where
  | noMessage
  | badData
  | good (jobId : String)

/-- Result of one handler run: HTTP disposition, the external calls
made, and the final job/report records. -/
structure HResult where
  http : Nat
  body : String
  calls : List Call
  job : Option JobFinal
  report : Option ReportDoc

/-- `String(e).slice(0, 500)` (JS slices UTF-16 units, Lean code
points). -/
def truncate500 (s : String) : String := String.mk (s.toList.take 500)

/-- The `TypeError` message thrown by `t.id` on a `null` entry. -/
def typeErrorMsg : String := "Cannot read properties of null (reading 'id')"

/-- `purgeImages(files)`: concurrent deletions joined by `Promise.all`;
`true` iff no deletion rejects (not-found never rejects, because of
`ignoreNotFound`); any rejection is caught and yields `false`. -/
def purgeImages (env : Env) (files : List String) : Bool :=
  files.all fun p => env.del p matches .ok | .notFound

/-- One run of the `'/_pubsub/analyze'` handler. -/
def handleAnalyze (cfg : Config) (env : Env) (msg : MsgCase)
    (jobs : String → Option JobDoc) : HResult :=
  match msg with
  | .noMessage => ⟨200, "no-message", [], none, none⟩
  | .badData =>
      -- decode throws; the catch-all re-decodes, throws again into the
      -- inner catch; still acknowledged, no job touched
      ⟨200, "ok", [], none, none⟩
  | .good jobId =>
    match jobs jobId with
    | none => ⟨200, "job-not-found", [], none, none⟩
    | some job =>
      let maxAllowed := maxForPlan cfg job.plan
      if job.files.length > maxAllowed then
        ⟨200, "ok", [.jobUpdate "error"],
         some ⟨"error", some (.coded "too_many_files" s!"max {maxAllowed} for plan"), none, none⟩,
         none⟩
      else
        let ocrCalls := job.files.map Call.ocrCall
        match env.classify with
        | .error e =>
            ⟨200, "ok", [.jobUpdate "processing"] ++ ocrCalls ++ [.classifyCall, .jobUpdate "error"],
             some ⟨"error", some (.plain (truncate500 e)), none, none⟩, none⟩
        | .ok raw =>
          match normalizeReport raw with
          | none =>
              ⟨200, "ok", [.jobUpdate "processing"] ++ ocrCalls ++ [.classifyCall, .jobUpdate "error"],
               some ⟨"error", some (.plain (truncate500 typeErrorMsg)), none, none⟩, none⟩
          | some rep =>
            let deleted := purgeImages env job.files
            ⟨200, "ok",
             [.jobUpdate "processing"] ++ ocrCalls ++ [.classifyCall, .reportSet]
               ++ job.files.map Call.delCall ++ [.jobUpdate "complete"]
               ++ (if deleted then [.reportUpdate] else []),
             some ⟨"complete", none,
                   if deleted then none else some "purge_failed_lifecycle_will_cleanup",
                   some jobId⟩,
             some ⟨jobId, job.userId, jobId, rep, deleted⟩⟩

/-! ## Spec-side definitions used in the claim statements -/

/-- The per-tactic score formula as the spec states it:
`round(40·likelihood + 35·((severity−1)/4) + 25·min(1, frequency/5))`. -/
def specScore (l s f : ℚ) : ℤ :=
  JsNum.jsRound (40 * l + 35 * ((s - 1) / 4) + 25 * min 1 (f / 5))

/-- The finite value of a JS number (junk `0` on `NaN`/`Infinity`; used
only under all-finite hypotheses). -/
def toQ : JsNum → ℚ
  | .fin q => q
  | _ => 0

/-- Spec-side `Σ (score/100 · weight)` over the `(id, score)` pairs. -/
def specNum (seen : List (String × JsNum)) : ℚ :=
  (seen.map fun p => toQ p.2 / 100 * weightOf p.1).sum

/-- Spec-side `Σ weight`. -/
def specDen (seen : List (String × JsNum)) : ℚ :=
  (seen.map fun p => weightOf p.1).sum

/-- Spec-side `Σ (score · weight)`. -/
def specSws (seen : List (String × JsNum)) : ℚ :=
  (seen.map fun p => toQ p.2 * weightOf p.1).sum

/-- The `(id, score)` pairs of a tactic list. -/
def pairsOf (ts : List Tactic) : List (String × JsNum) :=
  ts.map fun t => (t.id, t.score)

/-- The claim's risk formula `round(100 · Σ(score/100·w) / Σw)`. -/
def specRisk (seen : List (String × JsNum)) : ℤ :=
  JsNum.jsRound (100 * (specNum seen / specDen seen))

/-- The fields of a normalized tactic other than `contribution_pct`
(which a later loop rewrites). -/
def Tactic.core (t : Tactic) : String × JVal × JsNum × JsNum × JsNum × List JVal × JsNum :=
  (t.id, t.name, t.likelihood, t.severity, t.frequency, t.examples, t.score)

/-! ## Concrete inputs used in counterexamples and witnesses -/

/-- `{tactics: [null]}`. -/
def cexTacticsNull : JVal := .obj [("tactics", .arr [.null])]

/-- A tactic entry `{likelihood: "abc"}`. -/
def cexLikelihoodStr : JVal := .obj [("likelihood", .str "abc")]

/-- `{risk_label: ""}`. -/
def cexLabelEmpty : JVal := .obj [("risk_label", .str "")]

/-- Seventy identical nonzero tactics `{likelihood: 1}`. -/
def cexSeventy : JVal :=
  .obj [("tactics", .arr (List.replicate 70 (.obj [("likelihood", .num 1)])))]

/-- `{confidence: "abc"}`. -/
def cexConfStr : JVal := .obj [("confidence", .str "abc")]

/-- `{tactics: [1, null]}`. -/
def cexTwoWithNull : JVal := .obj [("tactics", .arr [.num 1, .null])]

/-- A fully-specified tactic entry used by witnesses. -/
def witEntry : JVal :=
  .obj [("id", .str "threats"), ("likelihood", .num 1), ("severity", .num 5),
        ("frequency", .num 5)]

/-- A well-formed report object used by witnesses. -/
def witRaw : JVal :=
  .obj [("tactics", .arr [.obj [("id", .str "threats"), ("likelihood", .num 1),
          ("severity", .num 5), ("frequency", .num 5)]]),
        ("confidence", .num (1/2)), ("narrative_md", .str "hello"),
        ("kpis", .obj [("communication_balance", .num 40)]),
        ("receipts", .arr [.obj [("quote", .str "q")]])]

/-- A two-file free-plan job. -/
def jobW : JobDoc := ⟨"free", ["shots/a.jpg", "shots/b.jpg"], some "u1", none, "uploaded"⟩

/-- A job store holding only `jobW` under id `"jobA"`. -/
def jobsW : String → Option JobDoc := fun id => if id = "jobA" then some jobW else none

/-- An environment whose classification succeeds with `witRaw` and whose
deletions all succeed. -/
def envOkW : Env := ⟨.ok witRaw, fun _ => .ok⟩

/-- An environment whose classification throws a 600-character error. -/
def envFailW : Env := ⟨.error (String.mk (List.replicate 600 'x')), fun _ => .ok⟩

/-- An environment where one deletion fails outright. -/
def envDelFailW : Env := ⟨.ok witRaw, fun p => if p = "shots/a.jpg" then .fail else .ok⟩

/-- Plan limits 1/2 — `jobW` exceeds the free limit. -/
def cfgSmall : Config := ⟨1, 2⟩

/-- Plan limits 3/15 — `jobW` is within the free limit. -/
def cfgBig : Config := ⟨3, 15⟩

/-- The report computed for `witRaw` (the fallback record is never
taken). -/
def reportOfW : Report :=
  (normalizeReport witRaw).getD ⟨.fin 0, .null, .fin 0, [], [], .null, none⟩

/-! ## Lemmas about rounding, clamping and the weight table -/

theorem jsRound_le {q : ℚ} {b : ℤ} (h : q ≤ (b : ℚ)) : JsNum.jsRound q ≤ b := by
  have h1 : (JsNum.jsRound q : ℚ) ≤ q + 1/2 := Int.floor_le _
  have h2 : ((JsNum.jsRound q : ℤ) : ℚ) < (b : ℚ) + 1 := by linarith
  have h3 : (JsNum.jsRound q : ℤ) < b + 1 := by exact_mod_cast h2
  omega

theorem le_jsRound {q : ℚ} {a : ℤ} (h : (a : ℚ) ≤ q) : a ≤ JsNum.jsRound q :=
  Int.le_floor.mpr (by linarith)

theorem jsRound_sub_le (q : ℚ) : |((JsNum.jsRound q : ℤ) : ℚ) - q| ≤ 1/2 := by
  have h1 : (JsNum.jsRound q : ℚ) ≤ q + 1/2 := Int.floor_le _
  have h2 : q + 1/2 - 1 < (JsNum.jsRound q : ℚ) := Int.sub_one_lt_floor _
  rw [abs_le]
  constructor <;> linarith

theorem jsRound_intCast (k : ℤ) : JsNum.jsRound (k : ℚ) = k :=
  le_antisymm (jsRound_le le_rfl) (le_jsRound le_rfl)

/-- The clamp core `Math.max(lo, Math.min(hi, m))`: `NaN` passes
through, anything else lands in `[lo, hi]`. -/
theorem jclamp_cases (m : JsNum) {lo hi : ℚ} (h : lo ≤ hi) :
    (m = .nan ∧ JsNum.jmax (.fin lo) (JsNum.jmin (.fin hi) m) = .nan) ∨
      ∃ q, JsNum.jmax (.fin lo) (JsNum.jmin (.fin hi) m) = .fin q ∧ lo ≤ q ∧ q ≤ hi := by
  cases m with
  | nan => exact Or.inl ⟨rfl, rfl⟩
  | inf p =>
      cases p with
      | true =>
          refine Or.inr ⟨max lo hi, ?_, le_max_left _ _, max_le h le_rfl⟩
          simp [JsNum.jmin, JsNum.jmax]
      | false =>
          refine Or.inr ⟨lo, ?_, le_rfl, h⟩
          simp [JsNum.jmin, JsNum.jmax]
  | fin x =>
      refine Or.inr ⟨max lo (min hi x), ?_, le_max_left _ _,
        max_le h (le_trans (min_le_left _ _) le_rfl)⟩
      simp [JsNum.jmin, JsNum.jmax]

/-- `clamp` applied to a number is never `NaN` and always lands in
`[lo, hi]`. -/
theorem clampN_inRange (n : JsNum) {lo hi : ℚ} (h : lo ≤ hi) :
    ∃ q, clampN n lo hi = .fin q ∧ lo ≤ q ∧ q ≤ hi := by
  unfold clampN
  rcases jclamp_cases (if n.jtruthy then n else .fin 0) h with ⟨hnan, _⟩ | hq
  · exfalso
    by_cases ht : n.jtruthy
    · rw [if_pos ht] at hnan
      subst hnan
      simp [JsNum.jtruthy] at ht
    · rw [if_neg ht] at hnan
      cases hnan
  · exact hq

/-- `clamp` applied to a raw value is `NaN` or lands in `[lo, hi]`. -/
theorem clampV_cases (v : JVal) {lo hi : ℚ} (h : lo ≤ hi) :
    clampV v lo hi = .nan ∨ ∃ q, clampV v lo hi = .fin q ∧ lo ≤ q ∧ q ≤ hi := by
  unfold clampV
  rcases jclamp_cases (if truthy v then toNum v else .fin 0) h with ⟨_, hres⟩ | hq
  · exact Or.inl hres
  · exact Or.inr hq

/-- A successful association-list lookup comes from a member pair. -/
theorem lookup_mem {β : Type} {l : List (String × β)} {id : String} {w : β}
    (h : l.lookup id = some w) : (id, w) ∈ l := by
  induction l with
  | nil => cases h
  | cons p rest ih =>
      obtain ⟨k, b⟩ := p
      rw [List.lookup] at h
      cases hbeq : (id == k) with
      | false =>
          rw [hbeq] at h
          exact List.mem_cons_of_mem _ (ih h)
      | true =>
          rw [hbeq] at h
          cases h
          have hk : id = k := by simpa using hbeq
          subst hk
          exact List.mem_cons_self _ _

/-- Every weight in the table, and the default, lies in `[0.95, 1.4]`;
in particular all weights are positive. -/
theorem weightOf_bounds (id : String) : 19/20 ≤ weightOf id ∧ weightOf id ≤ 7/5 := by
  unfold weightOf
  cases h : RISK_WEIGHTS.lookup id with
  | none => norm_num
  | some w =>
      have hmem := lookup_mem h
      simp only [RISK_WEIGHTS, List.mem_cons, List.not_mem_nil, or_false] at hmem
      rcases hmem with h1|h1|h1|h1|h1|h1|h1|h1|h1|h1|h1|h1 <;>
        (rw [Prod.mk.injEq] at h1; obtain ⟨-, rfl⟩ := h1; norm_num)

theorem weightOf_pos (id : String) : 0 < weightOf id :=
  lt_of_lt_of_le (by norm_num) (weightOf_bounds id).1

/-! ## Lemmas about `tacticScore` and `mkTactic` -/

/-- `clamp` is the identity on numbers already in range. -/
theorem clampN_id {q lo hi : ℚ} (h1 : lo ≤ q) (h2 : q ≤ hi) :
    clampN (.fin q) lo hi = .fin q := by
  unfold clampN
  have hin : (if (JsNum.fin q).jtruthy then JsNum.fin q else .fin 0) = .fin q := by
    by_cases hq : q = 0
    · subst hq; simp [JsNum.jtruthy]
    · simp [JsNum.jtruthy, hq]
  rw [hin]
  simp [JsNum.jmin, JsNum.jmax, min_eq_right h2, max_eq_right h1]

/-- `tacticScore` on finite fields evaluates to the spec formula (the
clamps inside `tacticScore` are the identity once the fields are the
already-clamped ones). -/
theorem tacticScore_eval (t : Tactic) {l s f : ℚ}
    (hl : clampN t.likelihood 0 1 = .fin l)
    (hs : clampN t.severity 1 5 = .fin s)
    (hf : t.frequency = .fin f) (hf5 : f ≤ 5) :
    tacticScore t = .fin ((specScore l s f : ℤ) : ℚ) := by
  simp only [tacticScore, hl, hs, hf]
  have h5 : JsNum.jmin (.fin 5) (.fin f) = .fin f := by
    simp [JsNum.jmin, min_eq_right hf5]
  rw [h5]
  simp only [JsNum.jsub, JsNum.jneg, JsNum.jadd, JsNum.jmul, JsNum.jdiv, JsNum.jmin,
    JsNum.jround, specScore]
  norm_num [sub_eq_add_neg]

/-- Bounds for the spec formula under the clamped ranges. -/
theorem specScore_bounds {l s f : ℚ} (hl0 : 0 ≤ l) (hl1 : l ≤ 1)
    (hs1 : 1 ≤ s) (hs5 : s ≤ 5) (hf0 : 0 ≤ f) :
    0 ≤ specScore l s f ∧ specScore l s f ≤ 100 := by
  have hmin0 : (0:ℚ) ≤ min 1 (f / 5) := le_min (by norm_num) (by positivity)
  have hmin1 : min 1 (f / 5) ≤ 1 := min_le_left _ _
  constructor
  · exact le_jsRound (by push_cast; nlinarith)
  · exact jsRound_le (by push_cast; nlinarith)

/-- A `NaN` frequency makes the whole score `NaN`. -/
theorem tacticScore_nan_freq (t : Tactic) (hf : t.frequency = .nan) :
    tacticScore t = .nan := by
  obtain ⟨l, hl, -, -⟩ := clampN_inRange t.likelihood (by norm_num : (0:ℚ) ≤ 1)
  obtain ⟨s, hs, -, -⟩ := clampN_inRange t.severity (by norm_num : (1:ℚ) ≤ 5)
  simp only [tacticScore, hl, hs, hf]
  simp only [JsNum.jsub, JsNum.jneg, JsNum.jadd, JsNum.jmul, JsNum.jdiv, JsNum.jmin,
    JsNum.jround]
  norm_num

/-- A finite frequency (necessarily in range for a normalized tactic)
makes the score an integer between 0 and 100. -/
theorem tacticScore_int_of_freq (t : Tactic) {f : ℚ}
    (hf : t.frequency = .fin f) (hf0 : 0 ≤ f) (hf5 : f ≤ 5) :
    ∃ k : ℤ, tacticScore t = .fin (k : ℚ) ∧ 0 ≤ k ∧ k ≤ 100 := by
  obtain ⟨l, hl, hl0, hl1⟩ := clampN_inRange t.likelihood (by norm_num : (0:ℚ) ≤ 1)
  obtain ⟨s, hs, hs1, hs5⟩ := clampN_inRange t.severity (by norm_num : (1:ℚ) ≤ 5)
  obtain ⟨hk0, hk1⟩ := specScore_bounds hl0 hl1 hs1 hs5 hf0
  exact ⟨specScore l s f, tacticScore_eval t hl hs hf hf5, hk0, hk1⟩

/-- The normalized frequency is `NaN` or a finite value in `[0, 5]`. -/
theorem mkTactic_frequency_cases (t : JVal) :
    (mkTactic t).frequency = .nan ∨ (mkTactic t).frequency.inRange 0 5 := by
  have h := jclamp_cases
    (toNum (jsCoalesce (t.get "frequency") (jsOr (lengthProp (t.get "examples")) (.num 0))))
    (by norm_num : (0:ℚ) ≤ 5)
  rcases h with ⟨-, hres⟩ | ⟨q, hq, h0, h5⟩
  · exact Or.inl hres
  · exact Or.inr ⟨q, hq, h0, h5⟩

/-- The normalized likelihood is `NaN` or a finite value in `[0, 1]`. -/
theorem mkTactic_likelihood_cases (t : JVal) :
    (mkTactic t).likelihood = .nan ∨ (mkTactic t).likelihood.inRange 0 1 :=
  clampV_cases _ (by norm_num)

/-- The normalized severity is `NaN` or a finite value in `[1, 5]`. -/
theorem mkTactic_severity_cases (t : JVal) :
    (mkTactic t).severity = .nan ∨ (mkTactic t).severity.inRange 1 5 :=
  clampV_cases _ (by norm_num)

/-- The stored score is the score of the normalized entry (assigning
`obj.score` does not change the fields `tacticScore` reads). -/
theorem mkTactic_score_def (t : JVal) : (mkTactic t).score = tacticScore (mkTactic t) := rfl

/-- Every normalized tactic's score is `NaN` (exactly when its
normalized frequency is `NaN`) or an integer in `[0, 100]`. -/
theorem mkTactic_score_cases (t : JVal) :
    ((mkTactic t).frequency = .nan ∧ (mkTactic t).score = .nan) ∨
      ∃ k : ℤ, (mkTactic t).score = .fin (k : ℚ) ∧ 0 ≤ k ∧ k ≤ 100 := by
  rcases mkTactic_frequency_cases t with hf | ⟨f, hf, hf0, hf5⟩
  · exact Or.inl ⟨hf, (mkTactic_score_def t).trans (tacticScore_nan_freq _ hf)⟩
  · obtain ⟨k, hk, h0, h1⟩ := tacticScore_int_of_freq (mkTactic t) hf hf0 hf5
    exact Or.inr ⟨k, (mkTactic_score_def t).trans hk, h0, h1⟩

/-- At most five examples are retained. -/
theorem mkTactic_examples_le (t : JVal) : (mkTactic t).examples.length ≤ 5 := by
  show (match t.get "examples" with | .arr xs => xs.take 5 | _ => ([] : List JVal)).length ≤ 5
  cases h : t.get "examples" <;> simp [List.length_take]

/-! ## Lemmas about the risk loop -/

theorem riskStep_fin (a d c : ℚ) (id : String) (s : ℚ) :
    riskStep (.fin a, d, .fin c) (id, .fin s) =
      (.fin (a + s / 100 * weightOf id), d + weightOf id, .fin (c + s * weightOf id)) := by
  simp only [riskStep, JsNum.jadd, JsNum.jmul, JsNum.jdiv]
  norm_num

/-- Evaluation of the risk loop when every score is a number: the fold
computes exactly the three spec sums. -/
theorem riskAcc_eval (seen : List (String × JsNum))
    (h : ∀ p ∈ seen, ∃ q : ℚ, p.2 = .fin q) (a d c : ℚ) :
    List.foldl riskStep (.fin a, d, .fin c) seen =
      (.fin (a + specNum seen), d + specDen seen, .fin (c + specSws seen)) := by
  induction seen generalizing a d c with
  | nil => simp [specNum, specDen, specSws]
  | cons p rest ih =>
      obtain ⟨id, sn⟩ := p
      obtain ⟨q, hq⟩ := h (id, sn) (List.mem_cons_self _ _)
      cases hq
      rw [List.foldl_cons, riskStep_fin,
        ih (fun p hp => h p (List.mem_cons_of_mem _ hp))]
      simp only [specNum, specDen, specSws, List.map_cons, List.sum_cons, toQ]
      refine congrArg₂ _ (congrArg _ ?_) (congrArg₂ _ ?_ (congrArg _ ?_)) <;> ring

theorem specDen_nonneg (seen : List (String × JsNum)) : 0 ≤ specDen seen :=
  List.sum_nonneg (by
    intro x hx
    obtain ⟨p, -, rfl⟩ := List.mem_map.mp hx
    exact le_of_lt (weightOf_pos p.1))

theorem specDen_pos {seen : List (String × JsNum)} (h : seen ≠ []) : 0 < specDen seen := by
  obtain ⟨p, rest, rfl⟩ := List.exists_cons_of_ne_nil h
  have h1 : specDen (p :: rest) = weightOf p.1 + specDen rest := by
    simp [specDen]
  rw [h1]
  have := specDen_nonneg rest
  have := weightOf_pos p.1
  linarith

/-- With all scores finite and in `[0, 100]`, the weighted numerator is
trapped between `0` and the denominator. -/
theorem specNum_bounds (seen : List (String × JsNum))
    (h : ∀ p ∈ seen, ∃ q : ℚ, p.2 = .fin q ∧ 0 ≤ q ∧ q ≤ 100) :
    0 ≤ specNum seen ∧ specNum seen ≤ specDen seen := by
  induction seen with
  | nil => simp [specNum, specDen]
  | cons p rest ih =>
      obtain ⟨q, hq, hq0, hq100⟩ := h p (List.mem_cons_self _ _)
      obtain ⟨ih0, ih1⟩ := ih (fun x hx => h x (List.mem_cons_of_mem _ hx))
      have hw := weightOf_pos p.1
      have h1 : specNum (p :: rest) = toQ p.2 / 100 * weightOf p.1 + specNum rest := by
        simp [specNum]
      have h2 : specDen (p :: rest) = weightOf p.1 + specDen rest := by
        simp [specDen]
      rw [h1, h2, hq]
      have hqv : toQ (.fin q) = q := rfl
      rw [hqv]
      constructor
      · have : 0 ≤ q / 100 * weightOf p.1 := by positivity
        linarith
      · have : q / 100 * weightOf p.1 ≤ weightOf p.1 := by nlinarith
        linarith

/-- Evaluation of `risk_score` when every score is a number. -/
theorem riskOf_eval (seen : List (String × JsNum)) (hne : seen ≠ [])
    (h : ∀ p ∈ seen, ∃ q : ℚ, p.2 = .fin q) :
    riskOf (riskAcc seen) =
      .fin ((JsNum.jsRound (100 * (specNum seen / specDen seen)) : ℤ) : ℚ) := by
  have hd := specDen_pos hne
  rw [riskOf, riskAcc, riskAcc_eval seen h 0 0 0]
  have hden : (0 + specDen seen) ≠ 0 := by linarith
  rw [if_pos hden]
  simp only [JsNum.jdiv, JsNum.jmul, JsNum.jround]
  rw [if_neg hden]
  norm_num

/-! ## Lemmas about contribution percentages -/

theorem contribOf_eval {S : ℚ} (hS : 0 < S) (t : Tactic) {s : ℚ} (hs : t.score = .fin s) :
    contribOf (.fin S) t =
      .fin (((JsNum.jsRound (s * weightOf t.id / S * 1000) : ℤ) : ℚ) / 10) := by
  unfold contribOf
  rw [hs]
  have hgt : (JsNum.fin S).jgt0 = true := by simp [JsNum.jgt0, hS]
  rw [if_pos hgt]
  simp only [JsNum.jmul, JsNum.jdiv, JsNum.jround]
  rw [if_neg (by linarith : S ≠ 0)]
  norm_num

theorem contribOf_not_pos (sws : JsNum) (t : Tactic) (h : sws.jgt0 = false) :
    contribOf sws t = .fin 0 := by
  unfold contribOf
  rw [h]
  simp

/-- Summing rounded values loses at most half a unit per entry. -/
theorem sum_jsRound_bound (xs : List ℚ) :
    |(xs.map fun x => ((JsNum.jsRound x : ℤ) : ℚ)).sum - xs.sum| ≤ xs.length / 2 := by
  induction xs with
  | nil => simp
  | cons x rest ih =>
      simp only [List.map_cons, List.sum_cons, List.length_cons]
      have h := jsRound_sub_le x
      have habs : |(((JsNum.jsRound x : ℤ) : ℚ) + (rest.map fun x => ((JsNum.jsRound x : ℤ) : ℚ)).sum)
          - (x + rest.sum)| ≤
          |((JsNum.jsRound x : ℤ) : ℚ) - x| +
            |(rest.map fun x => ((JsNum.jsRound x : ℤ) : ℚ)).sum - rest.sum| := by
        have := abs_add (((JsNum.jsRound x : ℤ) : ℚ) - x)
          ((rest.map fun x => ((JsNum.jsRound x : ℤ) : ℚ)).sum - rest.sum)
        calc |(((JsNum.jsRound x : ℤ) : ℚ) + (rest.map fun x => ((JsNum.jsRound x : ℤ) : ℚ)).sum)
              - (x + rest.sum)|
            = |(((JsNum.jsRound x : ℤ) : ℚ) - x) +
                ((rest.map fun x => ((JsNum.jsRound x : ℤ) : ℚ)).sum - rest.sum)| := by ring_nf
          _ ≤ _ := this
      have hlen : ((rest.length + 1 : ℕ) : ℚ) / 2 = (rest.length : ℚ) / 2 + 1/2 := by
        push_cast
        ring
      rw [hlen]
      linarith

theorem sum_map_share (l : List ℚ) (S : ℚ) :
    (l.map fun v => v / S * 1000).sum = l.sum / S * 1000 := by
  induction l with
  | nil => simp
  | cons x rest ih =>
      simp only [List.map_cons, List.sum_cons, ih]
      ring

theorem specSws_nonneg (seen : List (String × JsNum))
    (h : ∀ p ∈ seen, ∃ q : ℚ, p.2 = .fin q ∧ 0 ≤ q) : 0 ≤ specSws seen := by
  refine List.sum_nonneg ?_
  intro x hx
  obtain ⟨p, hp, rfl⟩ := List.mem_map.mp hx
  obtain ⟨q, hq, hq0⟩ := h p hp
  rw [hq]
  have := weightOf_pos p.1
  have hqv : toQ (.fin q) = q := rfl
  rw [hqv]
  positivity

theorem specSws_pos (seen : List (String × JsNum))
    (h : ∀ p ∈ seen, ∃ q : ℚ, p.2 = .fin q ∧ 0 ≤ q)
    (hpos : ∃ p ∈ seen, ∃ q : ℚ, p.2 = .fin q ∧ 0 < q) : 0 < specSws seen := by
  obtain ⟨p, hp, q, hq, hq0⟩ := hpos
  have hmem : toQ p.2 * weightOf p.1 ∈ seen.map fun p => toQ p.2 * weightOf p.1 :=
    List.mem_map.mpr ⟨p, hp, rfl⟩
  have hle := List.single_le_sum (fun x hx => by
    obtain ⟨r, hr, rfl⟩ := List.mem_map.mp hx
    obtain ⟨qr, hqr, hqr0⟩ := h r hr
    rw [hqr]
    have := weightOf_pos r.1
    have hqv : toQ (.fin qr) = qr := rfl
    rw [hqv]
    positivity) _ hmem
  have hval : toQ p.2 * weightOf p.1 = q * weightOf p.1 := by rw [hq]; rfl
  have := weightOf_pos p.1
  have hqp : 0 < q * weightOf p.1 := by positivity
  rw [hval] at hle
  exact lt_of_lt_of_le hqp hle

/-! ## Structure of `normalizeTactics` and `normalizeReport` -/

/-- When no entry is `null`, the map over tactic entries succeeds and is
an ordinary `List.map`. -/
theorem normalizeTactics_of_nonnull (xs : List JVal) (h : ∀ v ∈ xs, v.isNull = false) :
    normalizeTactics xs = some (xs.map mkTactic) := by
  induction xs with
  | nil => rfl
  | cons v rest ih =>
      have hv : normalizeTactic v = some (mkTactic v) := by
        rw [normalizeTactic, h v (List.mem_cons_self _ _)]
        rfl
      rw [normalizeTactics, hv, ih (fun w hw => h w (List.mem_cons_of_mem _ hw)), List.map_cons]

/-- Characterization of a successful `normalizeReport` run. -/
theorem normalizeReport_eq (raw : JVal) (hraw : raw.isNull = false)
    {nts : List Tactic} (hnts : normalizeTactics (tacticsListOf raw) = some nts) :
    normalizeReport raw = some
      { risk_score := riskOf (riskAcc (seenOf nts))
        risk_label :=
          if truthy (raw.get "risk_label") then raw.get "risk_label"
          else .str (riskLabel (riskOf (riskAcc (seenOf nts))))
        confidence := confBase raw
        tactics := nts.map fun t =>
          { t with contribution_pct := contribOf (riskAcc (seenOf nts)).2.2 t }
        receipts := receiptsOf raw
        kpis := if truthy (raw.get "kpis") then raw.get "kpis" else .obj []
        narrative_md := narrativeOf raw } := by
  rw [normalizeReport, hraw, hnts]
  rfl

/-- The overall risk score is an integer in `[0, 100]` whenever every
normalized score is one. -/
theorem risk_int_of_scores (nts : List Tactic)
    (h : ∀ t ∈ nts, ∃ k : ℤ, t.score = .fin (k : ℚ) ∧ 0 ≤ k ∧ k ≤ 100) :
    ∃ k : ℤ, riskOf (riskAcc (seenOf nts)) = .fin (k : ℚ) ∧ 0 ≤ k ∧ k ≤ 100 := by
  have hseen : ∀ p ∈ seenOf nts, ∃ q : ℚ, p.2 = .fin q ∧ 0 ≤ q ∧ q ≤ 100 := by
    intro p hp
    cases nts with
    | nil =>
        simp only [seenOf, List.mem_singleton] at hp
        subst hp
        exact ⟨0, rfl, le_rfl, by norm_num⟩
    | cons t rest =>
        simp only [seenOf, List.mem_map] at hp
        obtain ⟨u, hu, rfl⟩ := hp
        obtain ⟨k, hk, hk0, hk1⟩ := h u hu
        exact ⟨(k : ℚ), hk, by exact_mod_cast hk0, by exact_mod_cast hk1⟩
  have hne : seenOf nts ≠ [] := by
    cases nts with
    | nil => simp [seenOf]
    | cons t rest => simp [seenOf]
  have hfin : ∀ p ∈ seenOf nts, ∃ q : ℚ, p.2 = .fin q :=
    fun p hp => (hseen p hp).imp fun q hq => hq.1
  obtain ⟨h0, h1⟩ := specNum_bounds _ hseen
  have hd := specDen_pos hne
  refine ⟨JsNum.jsRound (100 * (specNum (seenOf nts) / specDen (seenOf nts))),
    riskOf_eval _ hne hfin, ?_, ?_⟩
  · refine le_jsRound ?_
    push_cast
    have := div_nonneg h0 (le_of_lt hd)
    linarith
  · refine jsRound_le ?_
    push_cast
    have hr : specNum (seenOf nts) / specDen (seenOf nts) ≤ 1 := by
      rw [div_le_one hd]
      exact h1
    linarith

/-! ## Inversion helpers -/

theorem eq_null_of_isNull {v : JVal} (h : v.isNull = true) : v = .null := by
  cases v <;> first | rfl | simp [JVal.isNull] at h

theorem truthy_not_null {v : JVal} (h : truthy v = true) : v.isNull = false := by
  cases v <;> first | rfl | simp [truthy] at h

theorem jsCoalesce_of_not_null {v w : JVal} (h : v.isNull = false) : jsCoalesce v w = v := by
  rw [jsCoalesce, h]
  rfl

theorem normalizeReport_inv {raw : JVal} {r : Report} (h : normalizeReport raw = some r) :
    raw.isNull = false ∧ ∃ nts, normalizeTactics (tacticsListOf raw) = some nts := by
  rw [normalizeReport] at h
  cases hb : raw.isNull with
  | true => rw [hb] at h; simp at h
  | false =>
      rw [hb] at h
      cases hnts : normalizeTactics (tacticsListOf raw) with
      | none => rw [hnts] at h; simp at h
      | some nts => exact ⟨rfl, nts, rfl⟩

/-- Destructing a successful run into the explicit output record. -/
theorem normalizeReport_dest {raw : JVal} {r : Report} (h : normalizeReport raw = some r) :
    ∃ nts, normalizeTactics (tacticsListOf raw) = some nts ∧
      r = { risk_score := riskOf (riskAcc (seenOf nts))
            risk_label :=
              if truthy (raw.get "risk_label") then raw.get "risk_label"
              else .str (riskLabel (riskOf (riskAcc (seenOf nts))))
            confidence := confBase raw
            tactics := nts.map fun t =>
              { t with contribution_pct := contribOf (riskAcc (seenOf nts)).2.2 t }
            receipts := receiptsOf raw
            kpis := if truthy (raw.get "kpis") then raw.get "kpis" else .obj []
            narrative_md := narrativeOf raw } := by
  obtain ⟨hn, nts, hnts⟩ := normalizeReport_inv h
  refine ⟨nts, hnts, ?_⟩
  have h2 := normalizeReport_eq raw hn hnts
  rw [h] at h2
  exact Option.some.inj h2

theorem truncate500_le (s : String) : (truncate500 s).length ≤ 500 := by
  have : (truncate500 s).length = (s.toList.take 500).length := rfl
  rw [this, List.length_take]
  exact min_le_left _ _

/-! ## Claim C4 — risk label -/

/-- C4 (counterexample): the raw object `{risk_label: ""}` supplies an
explicit `risk_label`, but the output label is the derived `"low"`, not
the supplied `""` — `||` discards falsy labels, so pass-through is not
verbatim for every supplied label. -/
theorem c4_risk_label_cex :
    (normalizeReport cexLabelEmpty).map Report.risk_label = some (JVal.str "low") ∧
      JVal.str "low" ≠ JVal.str "" := by
  constructor
  · with_unfolding_all rfl
  · intro h
    injection h with h2
    exact absurd h2 (by decide)

/-- C4 (amended): a truthy supplied `risk_label` (in particular any of
the labels `"low"`/`"medium"`/`"high"`) is passed through verbatim; a
falsy one (absent, `null`, `""`, `0`, `false`) falls back to the fixed
thresholds on the computed score: `<34` low, `34..66` medium, `>66`
high, so `label(33)="low"`, `label(34)="medium"`, `label(66)="medium"`,
`label(67)="high"`. -/
theorem c4_risk_label :
    (∀ (raw : JVal) (r : Report), normalizeReport raw = some r →
        truthy (raw.get "risk_label") = true → r.risk_label = raw.get "risk_label") ∧
    (∀ (raw : JVal) (r : Report), normalizeReport raw = some r →
        truthy (raw.get "risk_label") = false →
        r.risk_label = .str (riskLabel r.risk_score)) ∧
    riskLabel (.fin 33) = "low" ∧ riskLabel (.fin 34) = "medium" ∧
    riskLabel (.fin 66) = "medium" ∧ riskLabel (.fin 67) = "high" := by
  refine ⟨?_, ?_, by with_unfolding_all decide, by with_unfolding_all decide,
    by with_unfolding_all decide, by with_unfolding_all decide⟩
  · intro raw r h ht
    obtain ⟨nts, hnts, rfl⟩ := normalizeReport_dest h
    simp [ht]
  · intro raw r h ht
    obtain ⟨nts, hnts, rfl⟩ := normalizeReport_dest h
    simp [ht]

/-- C4 (witness): on `witRaw` no `risk_label` is supplied, and the
output label is the threshold label of its score. -/
theorem c4_witness :
    normalizeReport witRaw = some reportOfW ∧
      truthy (witRaw.get "risk_label") = false ∧
      reportOfW.risk_label = .str (riskLabel reportOfW.risk_score) :=
  ⟨by with_unfolding_all rfl, by with_unfolding_all decide,
   c4_risk_label.2.1 witRaw reportOfW (by with_unfolding_all rfl)
     (by with_unfolding_all decide)⟩

/-! ## Claim C6 — confidence -/

/-- C6 (counterexample): `{confidence: "abc"}` is "not interpretable as
a number", yet the output confidence is `NaN`, not the claimed `0.85`
(and `NaN` is not in `[0,1]` either): `??` only replaces `null`/absent
values, and `clamp` propagates the `NaN` that `Number("abc")`
produces. -/
theorem c6_confidence_cex :
    (normalizeReport cexConfStr).map Report.confidence = some JsNum.nan ∧
      ¬ JsNum.nan.inRange 0 1 ∧ JsNum.nan ≠ JsNum.fin (17/20) := by
  refine ⟨by with_unfolding_all rfl, ?_, by simp⟩
  rintro ⟨q, hq, -⟩
  cases hq

/-- C6 (amended): the output confidence is `clamp(confidence ?? 0.85, 0, 1)`;
it is exactly `0.85` precisely when the supplied confidence is absent or
`null`; a falsy non-null supplied value (`0`, `""`, `false`) yields `0`;
a truthy value coercing to a number is clamped into `[0,1]`; and a
truthy value whose coercion is `NaN` yields `NaN`. -/
theorem c6_confidence :
    (∀ (raw : JVal) (r : Report), normalizeReport raw = some r →
        r.confidence = confBase raw) ∧
    (∀ raw : JVal, (raw.get "confidence").isNull = true →
        confBase raw = .fin (17/20)) ∧
    (∀ raw : JVal, (raw.get "confidence").isNull = false →
        truthy (raw.get "confidence") = false → confBase raw = .fin 0) ∧
    (∀ raw : JVal, truthy (raw.get "confidence") = true →
        toNum (raw.get "confidence") ≠ .nan → (confBase raw).inRange 0 1) ∧
    (∀ raw : JVal, truthy (raw.get "confidence") = true →
        toNum (raw.get "confidence") = .nan → confBase raw = .nan) := by
  refine ⟨?_, ?_, ?_, ?_, ?_⟩
  · intro raw r h
    obtain ⟨nts, hnts, rfl⟩ := normalizeReport_dest h
    rfl
  · intro raw h
    rw [confBase, eq_null_of_isNull h]
    with_unfolding_all decide
  · intro raw h1 h2
    rw [confBase, jsCoalesce_of_not_null h1, clampV, h2]
    norm_num [JsNum.jmin, JsNum.jmax]
  · intro raw h1 h2
    rw [confBase, jsCoalesce_of_not_null (truthy_not_null h1)]
    rcases clampV_cases (raw.get "confidence") (by norm_num : (0:ℚ) ≤ 1) with hnan | hq
    · exfalso
      rw [clampV, h1] at hnan
      rcases jclamp_cases (toNum (raw.get "confidence")) (by norm_num : (0:ℚ) ≤ 1) with
        ⟨hm, -⟩ | ⟨q, hq, -, -⟩
      · exact h2 hm
      · rw [if_pos rfl] at hnan
        rw [hnan] at hq
        cases hq
    · exact hq
  · intro raw h1 h2
    rw [confBase, jsCoalesce_of_not_null (truthy_not_null h1), clampV, h1, h2]
    with_unfolding_all decide

/-- C6 (witness): `witRaw` supplies confidence `0.5`, which is passed
through clamped. -/
theorem c6_witness :
    normalizeReport witRaw = some reportOfW ∧
      reportOfW.confidence = confBase witRaw ∧
      truthy (witRaw.get "confidence") = true ∧
      toNum (witRaw.get "confidence") ≠ .nan ∧ (confBase witRaw).inRange 0 1 :=
  ⟨by with_unfolding_all rfl,
   c6_confidence.1 witRaw reportOfW (by with_unfolding_all rfl),
   by with_unfolding_all decide, by with_unfolding_all decide,
   c6_confidence.2.2.2.1 witRaw (by with_unfolding_all decide)
     (by with_unfolding_all decide)⟩

/-! ## Claim C2 — per-tactic normalization and scoring -/

/-- Numbers `jsOr`-defaulted against `0` coerce to their own value. -/
theorem toNum_jsOr_zero (q : ℚ) : toNum (jsOr (.num q) (.num 0)) = .fin q := by
  by_cases hq : q = 0
  · subst hq; rfl
  · rw [jsOr, truthy]
    have hd : decide (q ≠ 0) = true := decide_eq_true hq
    rw [hd, if_pos rfl]
    rfl

/-- C2 (counterexample): the supplied entry `{likelihood: "abc"}` is
normalized to likelihood `NaN`, which is not clamped into `[0,1]` —
`clamp` propagates the `NaN` of `Number("abc")`. -/
theorem c2_tactic_cex :
    (normalizeTactic cexLikelihoodStr).map Tactic.likelihood = some JsNum.nan ∧
      ¬ JsNum.nan.inRange 0 1 := by
  refine ⟨by with_unfolding_all rfl, ?_⟩
  rintro ⟨q, hq, -⟩
  cases hq

/-- C2 (amended): for a non-null supplied entry, normalization keeps at
most 5 examples; clamps likelihood into `[0,1]` (defaulting through the
`p` field to `0` when absent), severity into `[1,5]` (default `3`) and
frequency into `[0,5]` (defaulting to the capped count of provided
examples) whenever the respective supplied value coerces to a number,
and produces `NaN` otherwise; the stored score is
`round(40·l + 35·((s−1)/4) + 25·min(1, f/5))` of the normalized finite
fields, an integer in `[0,100]` whenever the normalized frequency is a
number (a `NaN` likelihood or severity is collapsed to the lower bound
by the inner re-clamp, while a `NaN` frequency makes the score `NaN`);
`score(1,5,5) = 100` and `score(0,1,0) = 0`. -/
theorem c2_tactic_normalization :
    (∀ t : JVal, t.isNull = false → normalizeTactic t = some (mkTactic t)) ∧
    (∀ t : JVal, (mkTactic t).examples.length ≤ 5) ∧
    (∀ t : JVal, (mkTactic t).likelihood ≠ .nan → (mkTactic t).likelihood.inRange 0 1) ∧
    (∀ t : JVal, (t.get "likelihood").isNull = true → (t.get "p").isNull = true →
        (mkTactic t).likelihood = .fin 0) ∧
    (∀ t : JVal, (mkTactic t).severity ≠ .nan → (mkTactic t).severity.inRange 1 5) ∧
    (∀ t : JVal, (t.get "severity").isNull = true → (mkTactic t).severity = .fin 3) ∧
    (∀ t : JVal, (mkTactic t).frequency ≠ .nan → (mkTactic t).frequency.inRange 0 5) ∧
    (∀ t : JVal, (t.get "frequency").isNull = true → (t.get "examples").isNull = true →
        (mkTactic t).frequency = .fin 0) ∧
    (∀ (t : JVal) (xs : List JVal), (t.get "frequency").isNull = true →
        t.get "examples" = .arr xs →
        (mkTactic t).frequency = .fin (min 5 (xs.length : ℚ))) ∧
    (∀ (t : JVal) (l s f : ℚ), (mkTactic t).likelihood = .fin l →
        (mkTactic t).severity = .fin s → (mkTactic t).frequency = .fin f →
        (mkTactic t).score = .fin ((specScore l s f : ℤ) : ℚ)) ∧
    (∀ t : JVal, (mkTactic t).frequency ≠ .nan →
        ∃ k : ℤ, (mkTactic t).score = .fin (k : ℚ) ∧ 0 ≤ k ∧ k ≤ 100) ∧
    (normalizeTactic witEntry).map Tactic.score = some (.fin 100) ∧
    (normalizeTactic (.obj [("likelihood", .num 0), ("severity", .num 1),
        ("frequency", .num 0)])).map Tactic.score = some (.fin 0) := by
  refine ⟨?_, mkTactic_examples_le, ?_, ?_, ?_, ?_, ?_, ?_, ?_, ?_, ?_,
    by with_unfolding_all rfl, by with_unfolding_all rfl⟩
  · intro t ht
    rw [normalizeTactic, ht]
    rfl
  · intro t ht
    rcases mkTactic_likelihood_cases t with hnan | hq
    · exact absurd hnan ht
    · exact hq
  · intro t h1 h2
    show clampV (jsCoalesce (t.get "likelihood") (jsCoalesce (t.get "p") (.num 0))) 0 1
      = .fin 0
    rw [eq_null_of_isNull h1, eq_null_of_isNull h2]
    with_unfolding_all decide
  · intro t ht
    rcases mkTactic_severity_cases t with hnan | hq
    · exact absurd hnan ht
    · exact hq
  · intro t h1
    show clampV (jsCoalesce (t.get "severity") (.num 3)) 1 5 = .fin 3
    rw [eq_null_of_isNull h1]
    with_unfolding_all decide
  · intro t ht
    rcases mkTactic_frequency_cases t with hnan | hq
    · exact absurd hnan ht
    · exact hq
  · intro t h1 h2
    show JsNum.jmax (.fin 0) (JsNum.jmin (.fin 5)
        (toNum (jsCoalesce (t.get "frequency") (jsOr (lengthProp (t.get "examples")) (.num 0)))))
      = .fin 0
    rw [eq_null_of_isNull h1, eq_null_of_isNull h2]
    with_unfolding_all decide
  · intro t xs h1 hx
    show JsNum.jmax (.fin 0) (JsNum.jmin (.fin 5)
        (toNum (jsCoalesce (t.get "frequency") (jsOr (lengthProp (t.get "examples")) (.num 0)))))
      = .fin (min 5 (xs.length : ℚ))
    rw [eq_null_of_isNull h1, hx]
    have hred : jsCoalesce JVal.null (jsOr (lengthProp (.arr xs)) (.num 0))
        = jsOr (.num (xs.length : ℚ)) (.num 0) := rfl
    rw [hred, toNum_jsOr_zero]
    have hmin : JsNum.jmin (.fin 5) (.fin (xs.length : ℚ)) = .fin (min 5 (xs.length : ℚ)) := rfl
    rw [hmin]
    have h0 : (0 : ℚ) ≤ min 5 (xs.length : ℚ) :=
      le_min (by norm_num) (by positivity)
    show JsNum.fin (max 0 (min 5 (xs.length : ℚ))) = .fin (min 5 (xs.length : ℚ))
    rw [max_eq_right h0]
  · intro t l s f hl hs hf
    rcases mkTactic_likelihood_cases t with hnan | ⟨q, hq, hq0, hq1⟩
    · rw [hl] at hnan; cases hnan
    · rw [hl] at hq
      injection hq with hq
      subst hq
      rcases mkTactic_severity_cases t with hnan | ⟨q', hq', hq0', hq1'⟩
      · rw [hs] at hnan; cases hnan
      · rw [hs] at hq'
        injection hq' with hq'
        subst hq'
        rcases mkTactic_frequency_cases t with hnan | ⟨q'', hq'', hq0'', hq1''⟩
        · rw [hf] at hnan; cases hnan
        · rw [hf] at hq''
          injection hq'' with hq''
          subst hq''
          rw [mkTactic_score_def]
          exact tacticScore_eval _ (by rw [hl]; exact clampN_id hq0 hq1)
            (by rw [hs]; exact clampN_id hq0' hq1') hf hq1''
  · intro t ht
    rcases mkTactic_score_cases t with ⟨hf, -⟩ | hk
    · exact absurd hf ht
    · exact hk

/-- C2 (witness): the entry `witEntry` has a numeric frequency and an
integer score in `[0,100]`. -/
theorem c2_witness :
    (mkTactic witEntry).frequency ≠ .nan ∧
      ∃ k : ℤ, (mkTactic witEntry).score = .fin (k : ℚ) ∧ 0 ≤ k ∧ k ≤ 100 :=
  ⟨by with_unfolding_all decide,
   c2_tactic_normalization.2.2.2.2.2.2.2.2.2.2.1 witEntry (by with_unfolding_all decide)⟩

/-! ## Claim C10 — tactics list pass-through -/

/-- C10 (counterexample): `{tactics: [1, null]}` supplies a two-entry
array, but `normalizeReport` throws on the `null` entry (`t.id` on
`null`), so no two-entry output list is produced. -/
theorem c10_tactics_cex :
    tacticsListOf cexTwoWithNull = [.num 1, .null] ∧
      normalizeReport cexTwoWithNull = none :=
  ⟨by with_unfolding_all rfl, by with_unfolding_all rfl⟩

/-- C10 (amended): when every entry of a supplied `tactics` array is
non-null, the output has exactly the same number of entries in the same
order, each normalized in place (all fields except `contribution_pct`,
which the later loop assigns, are those of `mkTactic`); no upper bound,
deduplication or filtering is applied.  A missing or non-array
`tactics` field yields the empty output list. -/
theorem c10_tactics_passthrough :
    (∀ (raw : JVal) (xs : List JVal), raw.isNull = false →
        raw.get "tactics" = .arr xs → (∀ v ∈ xs, v.isNull = false) →
        ∃ r, normalizeReport raw = some r ∧
          r.tactics.length = xs.length ∧
          r.tactics.map Tactic.core = xs.map fun v => (mkTactic v).core) ∧
    (∀ raw : JVal, raw.isNull = false → (∀ xs, raw.get "tactics" ≠ .arr xs) →
        ∃ r, normalizeReport raw = some r ∧ r.tactics = []) := by
  constructor
  · intro raw xs hraw hx hnn
    have hlist : tacticsListOf raw = xs := by rw [tacticsListOf, hx]
    have hnts : normalizeTactics (tacticsListOf raw) = some (xs.map mkTactic) := by
      rw [hlist]
      exact normalizeTactics_of_nonnull xs hnn
    refine ⟨_, normalizeReport_eq raw hraw hnts, ?_, ?_⟩
    · simp
    · show ((xs.map mkTactic).map _).map Tactic.core = _
      rw [List.map_map, List.map_map]
      rfl
  · intro raw hraw hne
    have hlist : tacticsListOf raw = [] := by
      rw [tacticsListOf]
      cases hg : raw.get "tactics" with
      | arr ys => exact absurd hg (hne ys)
      | _ => rfl
    have hnts : normalizeTactics (tacticsListOf raw) = some (([] : List JVal).map mkTactic) := by
      rw [hlist]
      rfl
    exact ⟨_, normalizeReport_eq raw hraw hnts, rfl⟩

/-- C10 (witness): `witRaw` supplies one tactic entry and gets exactly
one normalized entry back. -/
theorem c10_witness :
    ∃ r, normalizeReport witRaw = some r ∧
      r.tactics.length = [witEntry].length ∧
      r.tactics.map Tactic.core = [witEntry].map fun v => (mkTactic v).core :=
  c10_tactics_passthrough.1 witRaw [witEntry] (by with_unfolding_all decide)
    (by with_unfolding_all rfl)
    (fun v hv => by rw [List.mem_singleton.mp hv]; rfl)

/-! ## Claim C1 — totality and schema validity -/

theorem receiptsOf_le (raw : JVal) : (receiptsOf raw).length ≤ 30 := by
  rw [receiptsOf]
  cases h1 : asArray (raw.get "receipts") with
  | some xs => simp [List.length_take]
  | none =>
      cases h2 : asArray ((raw.get "receipts").get "highlights") with
      | some ys => simp [List.length_take]
      | none => simp

/-- C1 (counterexample): `{tactics: [null]}` — an object with a null
field inside `tactics` — makes `normalizeReport` raise a `TypeError`
(`t.id` on a `null` entry), so the function is not total over arbitrary
objects. -/
theorem c1_normalize_cex : normalizeReport cexTacticsNull = none := by
  with_unfolding_all rfl

theorem narrativeOf_ne_empty (raw : JVal) {s : String} (h : narrativeOf raw = some s) :
    s ≠ "" := by
  rw [narrativeOf] at h
  cases hg : raw.get "narrative_md" with
  | str s' =>
      rw [hg] at h
      by_cases ht : jsTrim s' = []
      · simp [ht] at h
      · simp only [ht, if_pos, ne_eq, not_false_eq_true, if_true] at h
        cases h
        intro hempty
        subst hempty
        exact ht rfl
  | _ =>
      rw [hg] at h
      cases h

/-- Throwing side: a `null` among the tactic entries aborts the map. -/
theorem normalizeTactics_none (xs : List JVal) (h : ∃ v ∈ xs, v.isNull = true) :
    normalizeTactics xs = none := by
  induction xs with
  | nil =>
      obtain ⟨v, hv, -⟩ := h
      simp at hv
  | cons w rest ih =>
      obtain ⟨v, hv, hnull⟩ := h
      rcases List.mem_cons.mp hv with rfl | hv'
      · rw [normalizeTactics, normalizeTactic, hnull]
        rfl
      · rw [normalizeTactics]
        cases hw : normalizeTactic w with
        | none => rfl
        | some nt => rw [ih ⟨v, hv', hnull⟩]

/-- C1 (amended): `normalizeReport` returns (rather than throwing)
exactly when the input is an object none of whose `tactics` entries is
`null`; the result then always has at most 30 receipts, a narrative
that is `null` or a non-blank string, and the `kpis` pass-through (the
supplied value when truthy — not necessarily an object — else `{}`);
`risk_score` is an integer in `[0,100]` provided no normalized tactic
score is `NaN`, and `confidence` lies in `[0,1]` provided it is not
`NaN` (a truthy non-numeric supplied confidence is the one way it can
be). -/
theorem c1_normalize_total :
    (∀ raw : JVal, raw.isNull = false → (∀ v ∈ tacticsListOf raw, v.isNull = false) →
        ∃ r : Report, normalizeReport raw = some r ∧
          r.receipts.length ≤ 30 ∧
          (∀ s, r.narrative_md = some s → s ≠ "") ∧
          r.kpis = (if truthy (raw.get "kpis") then raw.get "kpis" else .obj []) ∧
          ((∀ t ∈ r.tactics, t.score ≠ .nan) → r.risk_score.isIntBetween 0 100) ∧
          (r.confidence ≠ .nan → r.confidence.inRange 0 1)) ∧
    (∀ raw : JVal, raw.isNull = true ∨ (∃ v ∈ tacticsListOf raw, v.isNull = true) →
        normalizeReport raw = none) := by
  constructor
  · intro raw hraw hnn
    have hnts := normalizeTactics_of_nonnull (tacticsListOf raw) hnn
    refine ⟨_, normalizeReport_eq raw hraw hnts, receiptsOf_le raw, ?_, rfl, ?_, ?_⟩
    · intro s h
      exact narrativeOf_ne_empty raw h
    · intro hscore
      have hall : ∀ t ∈ (tacticsListOf raw).map mkTactic,
          ∃ k : ℤ, t.score = .fin (k : ℚ) ∧ 0 ≤ k ∧ k ≤ 100 := by
        intro t ht
        obtain ⟨v, hv, rfl⟩ := List.mem_map.mp ht
        rcases mkTactic_score_cases v with ⟨-, hnan⟩ | hk
        · exfalso
          refine hscore _ (List.mem_map_of_mem _ (List.mem_map_of_mem mkTactic hv)) ?_
          exact hnan
        · exact hk
      obtain ⟨k, hk, h0, h1⟩ := risk_int_of_scores _ hall
      exact ⟨k, hk, h0, h1⟩
    · intro hconf
      rcases clampV_cases (jsCoalesce (raw.get "confidence") (.num 0.85))
          (by norm_num : (0:ℚ) ≤ 1) with hnan | hq
      · exact absurd hnan hconf
      · exact hq
  · intro raw hbad
    rcases hbad with hn | hex
    · rw [normalizeReport, hn]
      rfl
    · rw [normalizeReport]
      cases hb : raw.isNull with
      | true => rfl
      | false =>
          rw [normalizeTactics_none _ hex]
          rfl

/-- C1 (witness): `witRaw` — with its tactic, confidence, narrative,
kpis and receipts fields all present — normalizes successfully and
meets every schema bound. -/
theorem c1_witness :
    normalizeReport witRaw = some reportOfW ∧
      reportOfW.receipts.length ≤ 30 ∧
      reportOfW.risk_score.isIntBetween 0 100 ∧ reportOfW.confidence.inRange 0 1 := by
  have hlist : tacticsListOf witRaw = [witEntry] := by with_unfolding_all rfl
  have h := c1_normalize_total.1 witRaw (by with_unfolding_all decide)
    (by
      rw [hlist]
      intro v hv
      rw [List.mem_singleton.mp hv]
      rfl)
  obtain ⟨r, hr, hrec, -, -, hrisk, hconf⟩ := h
  have heq : reportOfW = r := by
    unfold reportOfW
    rw [hr]
    rfl
  subst heq
  exact ⟨hr, hrec, hrisk (by with_unfolding_all decide),
    hconf (by with_unfolding_all decide)⟩

/-! ## Claim C3 — overall risk score -/

/-- Every member of a successful tactic normalization is `mkTactic` of
some entry. -/
theorem normalizeTactics_mem {xs : List JVal} {nts : List Tactic}
    (h : normalizeTactics xs = some nts) : ∀ t ∈ nts, ∃ v, t = mkTactic v := by
  induction xs generalizing nts with
  | nil =>
      have h2 := Option.some.inj h
      subst h2
      intro t ht
      simp at ht
  | cons w rest ih =>
      rw [normalizeTactics] at h
      cases hw : normalizeTactic w with
      | none => rw [hw] at h; cases h
      | some nt =>
          rw [hw] at h
          cases hr : normalizeTactics rest with
          | none => rw [hr] at h; cases h
          | some nts' =>
              rw [hr] at h
              have h2 := Option.some.inj h
              subst h2
              intro t ht
              rcases List.mem_cons.mp ht with rfl | ht'
              · rw [normalizeTactic] at hw
                cases hwn : w.isNull with
                | true => rw [hwn] at hw; cases hw
                | false =>
                    rw [hwn] at hw
                    exact ⟨w, (Option.some.inj hw).symm⟩
              · exact ih hr t ht'

/-- A single finite integer-scored tactic: the weighted average
collapses to the score itself, whatever the weight. -/
theorem risk_single_int (id : String) (k : ℤ) :
    riskOf (riskAcc [(id, .fin (k : ℚ))]) = .fin (k : ℚ) := by
  have hw := weightOf_pos id
  have hden : (0 : ℚ) + weightOf id ≠ 0 := by linarith
  rw [riskAcc, List.foldl_cons, List.foldl_nil, riskStep_fin, riskOf]
  rw [if_pos hden]
  simp only [JsNum.jdiv]
  rw [if_neg hden]
  simp only [JsNum.jmul, JsNum.jround]
  have harith : (100 : ℚ) * ((0 + (k : ℚ) / 100 * weightOf id) / (0 + weightOf id))
      = (k : ℚ) := by
    field_simp
    ring
  rw [harith, jsRound_intCast]

/-- A single `NaN`-scored tactic gives a `NaN` risk score. -/
theorem risk_single_nan (id : String) :
    riskOf (riskAcc [(id, .nan)]) = .nan := by
  have hw := weightOf_pos id
  have hden : (0 : ℚ) + weightOf id ≠ 0 := by linarith
  rw [riskAcc, List.foldl_cons, List.foldl_nil]
  have hstep : riskStep (.fin 0, 0, .fin 0) (id, .nan) = (.nan, 0 + weightOf id, .nan) := by
    simp [riskStep, JsNum.jadd, JsNum.jmul, JsNum.jdiv]
  rw [hstep, riskOf, if_pos hden]
  rfl

/-- C3: the overall `risk_score` is
`round(100 · Σ(scoreᵢ/100 · weightᵢ) / Σ weightᵢ)` over the normalized
tactics with the fixed weight table (threats 1.40, coercion 1.30,
gaslighting 1.20, darvo 1.10, contempt 1.05, stonewalling 0.95, the
rest and any unlisted id 1.00); an empty tactic list is replaced by one
synthetic zero-score `"other"` entry giving risk 0; and a single tactic
yields exactly its own score, regardless of weight. -/
theorem c3_risk_score :
    weightOf "threats" = 1.40 ∧ weightOf "coercion" = 1.30 ∧
    weightOf "gaslighting" = 1.20 ∧ weightOf "darvo" = 1.10 ∧
    weightOf "contempt" = 1.05 ∧ weightOf "stonewalling" = 0.95 ∧
    weightOf "blame-shifting" = 1.00 ∧ weightOf "minimization" = 1.00 ∧
    weightOf "guilt-tripping" = 1.00 ∧ weightOf "triangulation" = 1.00 ∧
    weightOf "boundaries" = 1.00 ∧ weightOf "projection" = 1.00 ∧
    weightOf "other" = 1.00 ∧
    (∀ id, RISK_WEIGHTS.lookup id = none → weightOf id = 1.00) ∧
    (∀ (raw : JVal) (r : Report), normalizeReport raw = some r → r.tactics ≠ [] →
        (∀ t ∈ r.tactics, t.score ≠ .nan) →
        r.risk_score = .fin ((specRisk (pairsOf r.tactics) : ℤ) : ℚ)) ∧
    (∀ (raw : JVal) (r : Report), normalizeReport raw = some r → r.tactics = [] →
        seenOf [] = [("other", .fin 0)] ∧ r.risk_score = .fin 0) ∧
    (∀ (raw : JVal) (r : Report) (t : Tactic), normalizeReport raw = some r →
        r.tactics = [t] → r.risk_score = t.score) := by
  refine ⟨by with_unfolding_all decide, by with_unfolding_all decide,
    by with_unfolding_all decide, by with_unfolding_all decide,
    by with_unfolding_all decide, by with_unfolding_all decide,
    by with_unfolding_all decide, by with_unfolding_all decide,
    by with_unfolding_all decide, by with_unfolding_all decide,
    by with_unfolding_all decide, by with_unfolding_all decide,
    by with_unfolding_all decide, ?_, ?_, ?_, ?_⟩
  · intro id h
    rw [weightOf, h]
    norm_num
  · intro raw r h hne hscore
    obtain ⟨nts, hnts, rfl⟩ := normalizeReport_dest h
    have hmem := normalizeTactics_mem hnts
    have hntsne : nts ≠ [] := by
      intro hnil
      subst hnil
      exact hne rfl
    have hpair : pairsOf (nts.map fun t =>
        { t with contribution_pct := contribOf (riskAcc (seenOf nts)).2.2 t })
        = seenOf nts := by
      rw [pairsOf, List.map_map]
      cases nts with
      | nil => exact absurd rfl hntsne
      | cons a l => rfl
    show riskOf (riskAcc (seenOf nts)) = _
    rw [hpair]
    have hfin : ∀ p ∈ seenOf nts, ∃ q : ℚ, p.2 = .fin q := by
      intro p hp
      cases nts with
      | nil => exact absurd rfl hntsne
      | cons a l =>
          simp only [seenOf, List.mem_map] at hp
          obtain ⟨u, hu, rfl⟩ := hp
          obtain ⟨v, rfl⟩ := hmem u hu
          rcases mkTactic_score_cases v with ⟨-, hnan⟩ | ⟨k, hk, -, -⟩
          · exfalso
            refine hscore _ (List.mem_map_of_mem _ hu) hnan
          · exact ⟨(k : ℚ), hk⟩
    have hne' : seenOf nts ≠ [] := by
      cases nts with
      | nil => exact absurd rfl hntsne
      | cons a l => simp [seenOf]
    exact riskOf_eval _ hne' hfin
  · intro raw r h hnil
    obtain ⟨nts, hnts, rfl⟩ := normalizeReport_dest h
    have hn : nts = [] := by
      have := hnil
      simpa using this
    subst hn
    refine ⟨rfl, ?_⟩
    show riskOf (riskAcc (seenOf [])) = .fin 0
    with_unfolding_all decide
  · intro raw r t h hone
    obtain ⟨nts, hnts, rfl⟩ := normalizeReport_dest h
    have hmem := normalizeTactics_mem hnts
    cases nts with
    | nil => simp at hone
    | cons a l =>
        cases l with
        | cons b l2 => simp at hone
        | nil =>
            simp only [List.map_cons, List.map_nil, List.cons.injEq, and_true] at hone
            show riskOf (riskAcc (seenOf [a])) = t.score
            have hts : t.score = a.score := by
              rw [← hone]
            rw [hts]
            obtain ⟨v, rfl⟩ := hmem a (List.mem_cons_self _ _)
            have hseen : seenOf [mkTactic v] = [((mkTactic v).id, (mkTactic v).score)] := rfl
            rw [hseen]
            rcases mkTactic_score_cases v with ⟨-, hnan⟩ | ⟨k, hk, -, -⟩
            · rw [hnan]
              exact risk_single_nan _
            · rw [hk]
              exact risk_single_int _ _

/-- C3 (witness): `witRaw` has a single tactic with score 100, and the
overall risk score is exactly that score — 100. -/
theorem c3_witness :
    normalizeReport witRaw = some reportOfW ∧
      reportOfW.tactics.length = 1 ∧
      (∀ t ∈ reportOfW.tactics, reportOfW.risk_score = t.score) ∧
      reportOfW.risk_score = .fin 100 := by
  refine ⟨by with_unfolding_all rfl, by with_unfolding_all decide, ?_,
    by with_unfolding_all decide⟩
  intro t ht
  have hsing : reportOfW.tactics = [t] := by
    cases hl : reportOfW.tactics with
    | nil => rw [hl] at ht; simp at ht
    | cons a l =>
        rw [hl] at ht
        cases l with
        | nil =>
            rw [List.mem_singleton.mp ht]
        | cons b l2 =>
            exfalso
            have h2 : reportOfW.tactics.length = 1 := by with_unfolding_all decide
            rw [hl] at h2
            simp at h2
  exact c3_risk_score.2.2.2.2.2.2.2.2.2.2.2.2.2.2.2.2 witRaw reportOfW t
    (by with_unfolding_all rfl) hsing

/-! ## Claim C5 — contribution percentages -/

theorem jadd_nan_left (x : JsNum) : JsNum.jadd .nan x = .nan := by
  cases x <;> rfl

/-- Once the `sumWeightScore` accumulator is `NaN`, it stays `NaN`. -/
theorem riskAcc_sws_stay_nan (seen : List (String × JsNum)) (a : JsNum) (d : ℚ) :
    (List.foldl riskStep (a, d, .nan) seen).2.2 = .nan := by
  induction seen generalizing a d with
  | nil => rfl
  | cons p rest ih =>
      have heq : riskStep (a, d, .nan) p =
          (JsNum.jadd a (JsNum.jmul (JsNum.jdiv p.2 (.fin 100)) (.fin (weightOf p.1))),
           d + weightOf p.1, .nan) := by
        simp only [riskStep, jadd_nan_left]
      rw [List.foldl_cons, heq]
      exact ih _ _

/-- One `NaN` score poisons the `sumWeightScore` accumulator. -/
theorem riskAcc_sws_nan (seen : List (String × JsNum))
    (hshape : ∀ p ∈ seen, p.2 = .nan ∨ ∃ q : ℚ, p.2 = .fin q)
    (h : ∃ p ∈ seen, p.2 = .nan) (a : JsNum) (d : ℚ) (c : ℚ) :
    (List.foldl riskStep (a, d, .fin c) seen).2.2 = .nan := by
  induction seen generalizing a d c with
  | nil =>
      obtain ⟨p, hp, -⟩ := h
      simp at hp
  | cons p rest ih =>
      have heq : riskStep (a, d, .fin c) p =
          (JsNum.jadd a (JsNum.jmul (JsNum.jdiv p.2 (.fin 100)) (.fin (weightOf p.1))),
           d + weightOf p.1,
           JsNum.jadd (.fin c) (JsNum.jmul p.2 (.fin (weightOf p.1)))) := rfl
      rw [List.foldl_cons, heq]
      obtain ⟨p', hp', hnan⟩ := h
      rcases List.mem_cons.mp hp' with rfl | hmem
      · rw [hnan]
        exact riskAcc_sws_stay_nan rest _ _
      · rcases hshape p (List.mem_cons_self _ _) with hpn | ⟨q, hq⟩
        · rw [hpn]
          exact riskAcc_sws_stay_nan rest _ _
        · rw [hq]
          have hstep : JsNum.jadd (.fin c) (JsNum.jmul (.fin q) (.fin (weightOf p.1)))
              = .fin (c + q * weightOf p.1) := rfl
          rw [hstep]
          exact ih (fun x hx => hshape x (List.mem_cons_of_mem _ hx)) ⟨p', hmem, hnan⟩ _ _ _

theorem sum_div_const (l : List ℚ) (c : ℚ) : (l.map fun x => x / c).sum = l.sum / c := by
  induction l with
  | nil => simp
  | cons x rest ih =>
      simp only [List.map_cons, List.sum_cons, ih]
      ring

set_option maxRecDepth 100000 in
/-- C5 (counterexample): seventy identical nonzero tactics — each gets
contribution `round(1000/70)/10 = 1.4`, so the values sum to `98.0`,
outside the claimed `100 ± 1.0`.  Per-entry rounding error accumulates
linearly with the (unbounded) number of tactics. -/
theorem c5_contribution_cex :
    (normalizeReport cexSeventy).map (fun r => r.tactics.map fun t => t.score)
        = some (List.replicate 70 (.fin 58)) ∧
    (normalizeReport cexSeventy).map (fun r => r.tactics.map fun t => t.contribution_pct)
        = some (List.replicate 70 (.fin (7/5))) ∧
    (List.replicate 70 ((7:ℚ)/5)).sum = 98 ∧
    ¬ |(98 : ℚ) - 100| ≤ 1 := by
  refine ⟨by with_unfolding_all rfl, by with_unfolding_all rfl,
    by with_unfolding_all decide, by with_unfolding_all decide⟩

/-- C5 (amended): with every normalized score a number and
`S = Σ(score·weight) > 0`, each output tactic's `contribution_pct` is
`round(score·weight/S · 1000)/10`; when `S` is not positive — it is `0`,
or `NaN` because some score is — every `contribution_pct` is `0`; and
when additionally some score is nonzero, the values sum to `100` within
`0.05` per tactic (`|Σ − 100| ≤ n/20`), not within the flat `±1.0` the
claim states. -/
theorem c5_contribution :
    (∀ (raw : JVal) (r : Report), normalizeReport raw = some r →
        (∀ t ∈ r.tactics, t.score ≠ .nan) → 0 < specSws (pairsOf r.tactics) →
        ∀ t ∈ r.tactics, t.contribution_pct =
          .fin (((JsNum.jsRound (toQ t.score * weightOf t.id /
            specSws (pairsOf r.tactics) * 1000) : ℤ) : ℚ) / 10)) ∧
    (∀ (raw : JVal) (r : Report), normalizeReport raw = some r →
        (∀ t ∈ r.tactics, t.score ≠ .nan) → specSws (pairsOf r.tactics) ≤ 0 →
        ∀ t ∈ r.tactics, t.contribution_pct = .fin 0) ∧
    (∀ (raw : JVal) (r : Report), normalizeReport raw = some r →
        (∃ t ∈ r.tactics, t.score = .nan) →
        ∀ t ∈ r.tactics, t.contribution_pct = .fin 0) ∧
    (∀ (raw : JVal) (r : Report), normalizeReport raw = some r →
        (∀ t ∈ r.tactics, t.score ≠ .nan) → (∃ t ∈ r.tactics, t.score ≠ .fin 0) →
        ∃ cs : List ℚ,
          r.tactics.map (fun t => t.contribution_pct) = cs.map .fin ∧
          |cs.sum - 100| ≤ (r.tactics.length : ℚ) / 20) := by
  have key : ∀ {raw : JVal} {r : Report}, normalizeReport raw = some r →
      ∃ nts : List Tactic,
        (∀ t ∈ nts, t.score = .nan ∨ ∃ k : ℤ, t.score = .fin (k : ℚ) ∧ 0 ≤ k ∧ k ≤ 100) ∧
        r.tactics = nts.map fun t =>
          { t with contribution_pct := contribOf (riskAcc (seenOf nts)).2.2 t } := by
    intro raw r h
    obtain ⟨nts, hnts, rfl⟩ := normalizeReport_dest h
    refine ⟨nts, ?_, rfl⟩
    intro t ht
    obtain ⟨v, rfl⟩ := normalizeTactics_mem hnts t ht
    rcases mkTactic_score_cases v with ⟨-, hnan⟩ | hk
    · exact Or.inl hnan
    · exact Or.inr hk
  have hallfin : ∀ (nts : List Tactic)
      (hkey : ∀ t ∈ nts, t.score = .nan ∨ ∃ k : ℤ, t.score = .fin (k : ℚ) ∧ 0 ≤ k ∧ k ≤ 100)
      (c : JsNum)
      (hfinS : ∀ t ∈ nts.map (fun t => { t with contribution_pct := contribOf c t }),
        t.score ≠ .nan),
      ∀ t ∈ nts, ∃ k : ℤ, t.score = .fin (k : ℚ) ∧ 0 ≤ k ∧ k ≤ 100 := by
    intro nts hkey c hfinS t ht
    rcases hkey t ht with hnan | hk
    · have h2 := hfinS _
        (List.mem_map_of_mem (fun t => { t with contribution_pct := contribOf c t }) ht)
      exact absurd hnan h2
    · exact hk
  have hseenfin : ∀ (nts : List Tactic),
      (∀ t ∈ nts, ∃ k : ℤ, t.score = .fin (k : ℚ) ∧ 0 ≤ k ∧ k ≤ 100) →
      ∀ p ∈ seenOf nts, ∃ q : ℚ, p.2 = .fin q ∧ 0 ≤ q := by
    intro nts hsc p hp
    cases nts with
    | nil =>
        simp only [seenOf, List.mem_singleton] at hp
        subst hp
        exact ⟨0, rfl, le_rfl⟩
    | cons a l =>
        simp only [seenOf, List.mem_map] at hp
        obtain ⟨u, hu, rfl⟩ := hp
        obtain ⟨k, hk, hk0, -⟩ := hsc u hu
        exact ⟨(k : ℚ), hk, by exact_mod_cast hk0⟩
  have hswslem : ∀ (nts : List Tactic),
      (∀ p ∈ seenOf nts, ∃ q : ℚ, p.2 = .fin q) →
      (riskAcc (seenOf nts)).2.2 = .fin (specSws (seenOf nts)) := by
    intro nts hfin'
    have h3 := riskAcc_eval (seenOf nts) hfin' 0 0 0
    rw [riskAcc, h3]
    show JsNum.fin (0 + specSws (seenOf nts)) = JsNum.fin (specSws (seenOf nts))
    rw [zero_add]
  have hpairlem : ∀ (nts : List Tactic) (c : JsNum), nts ≠ [] →
      pairsOf (nts.map fun t => { t with contribution_pct := contribOf c t }) = seenOf nts := by
    intro nts c hne
    rw [pairsOf, List.map_map]
    cases nts with
    | nil => exact absurd rfl hne
    | cons a l => rfl
  refine ⟨?_, ?_, ?_, ?_⟩
  · -- formula under positive finite sum
    intro raw r h hfinS hpos t ht
    obtain ⟨nts, hkey, hrt⟩ := key h
    have hne : nts ≠ [] := by
      intro hn
      subst hn
      rw [hrt] at ht
      simp at ht
    have hsc := hallfin nts hkey _ (hrt ▸ hfinS)
    have hfin' : ∀ p ∈ seenOf nts, ∃ q : ℚ, p.2 = .fin q :=
      fun p hp => ((hseenfin nts hsc) p hp).imp fun q hq => hq.1
    have hsws := hswslem nts hfin'
    have hpair : pairsOf r.tactics = seenOf nts := by
      rw [hrt]
      exact hpairlem nts _ hne
    rw [hpair] at hpos ⊢
    rw [hrt] at ht
    obtain ⟨u, hu, rfl⟩ := List.mem_map.mp ht
    obtain ⟨k, hk, -, -⟩ := hsc u hu
    show contribOf (riskAcc (seenOf nts)).2.2 u = _
    rw [hsws, hk]
    exact contribOf_eval hpos u hk
  · -- sum not positive (zero) : all contributions zero
    intro raw r h hfinS hle t ht
    obtain ⟨nts, hkey, hrt⟩ := key h
    have hne : nts ≠ [] := by
      intro hn
      subst hn
      rw [hrt] at ht
      simp at ht
    have hsc := hallfin nts hkey _ (hrt ▸ hfinS)
    have hfin' : ∀ p ∈ seenOf nts, ∃ q : ℚ, p.2 = .fin q :=
      fun p hp => ((hseenfin nts hsc) p hp).imp fun q hq => hq.1
    have hsws := hswslem nts hfin'
    have hpair : pairsOf r.tactics = seenOf nts := by
      rw [hrt]
      exact hpairlem nts _ hne
    rw [hpair] at hle
    rw [hrt] at ht
    obtain ⟨u, hu, rfl⟩ := List.mem_map.mp ht
    show contribOf (riskAcc (seenOf nts)).2.2 u = .fin 0
    refine contribOf_not_pos _ _ ?_
    rw [hsws]
    exact decide_eq_false (not_lt.mpr hle)
  · -- a NaN score : all contributions zero
    intro raw r h hex t ht
    obtain ⟨nts, hkey, hrt⟩ := key h
    rw [hrt] at hex ht
    obtain ⟨u, hu, rfl⟩ := List.mem_map.mp ht
    obtain ⟨t', ht', hnan⟩ := hex
    obtain ⟨u', hu', rfl⟩ := List.mem_map.mp ht'
    have hnan' : u'.score = .nan := hnan
    have hshape : ∀ p ∈ seenOf nts, p.2 = .nan ∨ ∃ q : ℚ, p.2 = .fin q := by
      intro p hp
      cases hmem : nts with
      | nil =>
          rw [hmem] at hp
          simp only [seenOf, List.mem_singleton] at hp
          subst hp
          exact Or.inr ⟨0, rfl⟩
      | cons a l =>
          rw [hmem] at hp
          simp only [seenOf, List.mem_map] at hp
          obtain ⟨w, hw, rfl⟩ := hp
          rcases hkey w (hmem ▸ hw) with hn | ⟨k, hk, -, -⟩
          · exact Or.inl hn
          · exact Or.inr ⟨(k : ℚ), hk⟩
    have hnseen : ∃ p ∈ seenOf nts, p.2 = .nan := by
      have hne : nts ≠ [] := by
        intro hn
        rw [hn] at hu'
        simp at hu'
      refine ⟨(u'.id, u'.score), ?_, hnan'⟩
      cases hmem : nts with
      | nil => exact absurd hmem hne
      | cons a l =>
          simp only [seenOf, List.mem_map]
          exact ⟨u', hmem ▸ hu', rfl⟩
    have hsws : (riskAcc (seenOf nts)).2.2 = .nan := by
      rw [riskAcc]
      exact riskAcc_sws_nan _ hshape hnseen _ _ _
    show contribOf (riskAcc (seenOf nts)).2.2 u = .fin 0
    refine contribOf_not_pos _ _ ?_
    rw [hsws]
    rfl
  · -- bounded sum
    intro raw r h hfinS hex
    obtain ⟨nts, hkey, hrt⟩ := key h
    have hne : nts ≠ [] := by
      intro hn
      subst hn
      rw [hrt] at hex
      obtain ⟨t, ht, -⟩ := hex
      simp at ht
    have hsc := hallfin nts hkey _ (hrt ▸ hfinS)
    have hfin' : ∀ p ∈ seenOf nts, ∃ q : ℚ, p.2 = .fin q :=
      fun p hp => ((hseenfin nts hsc) p hp).imp fun q hq => hq.1
    have hsws := hswslem nts hfin'
    have hpair : pairsOf r.tactics = seenOf nts := by
      rw [hrt]
      exact hpairlem nts _ hne
    -- positivity of the weighted sum
    have hpos : 0 < specSws (seenOf nts) := by
      refine specSws_pos _ (hseenfin nts hsc) ?_
      obtain ⟨t, ht, htnz⟩ := hex
      rw [hrt] at ht
      obtain ⟨u, hu, rfl⟩ := List.mem_map.mp ht
      obtain ⟨k, hk, hk0, -⟩ := hsc u hu
      have hkpos : (0 : ℚ) < (k : ℚ) := by
        have hknz : (k : ℚ) ≠ 0 := by
          intro hzero
          refine htnz ?_
          show u.score = .fin 0
          rw [hk, hzero]
        have : (0:ℚ) ≤ (k : ℚ) := by exact_mod_cast hk0
        exact lt_of_le_of_ne this (Ne.symm hknz)
      refine ⟨(u.id, u.score), ?_, (k : ℚ), hk, hkpos⟩
      cases hmem : nts with
      | nil => exact absurd hmem hne
      | cons a l =>
          simp only [seenOf, List.mem_map]
          exact ⟨u, hmem ▸ hu, rfl⟩
    set S := specSws (seenOf nts) with hSdef
    refine ⟨nts.map fun t =>
      ((JsNum.jsRound (toQ t.score * weightOf t.id / S * 1000) : ℤ) : ℚ) / 10, ?_, ?_⟩
    · -- the contribution list is the rounded-share list
      rw [hrt, List.map_map, List.map_map]
      refine List.map_congr_left ?_
      intro u hu
      obtain ⟨k, hk, -, -⟩ := hsc u hu
      show contribOf (riskAcc (seenOf nts)).2.2 u
          = .fin (((JsNum.jsRound (toQ u.score * weightOf u.id / S * 1000) : ℤ) : ℚ) / 10)
      rw [hsws, contribOf_eval hpos u hk, hk]
      rfl
    · -- the rounded shares sum to 100 within n/20
      have hbs : (nts.map fun t => toQ t.score * weightOf t.id).sum = S := by
        rw [hSdef, specSws]
        cases nts with
        | nil => exact absurd rfl hne
        | cons a l =>
            show (List.map (fun t => toQ t.score * weightOf t.id) (a :: l)).sum
              = (List.map (fun p => toQ p.2 * weightOf p.1)
                  (List.map (fun t => (t.id, t.score)) (a :: l))).sum
            rw [List.map_map]
            rfl
      have hxs :
          (nts.map fun t => toQ t.score * weightOf t.id / S * 1000)
            = (nts.map fun t => toQ t.score * weightOf t.id).map fun b => b / S * 1000 := by
        rw [List.map_map]
        rfl
      have hxsum : (nts.map fun t => toQ t.score * weightOf t.id / S * 1000).sum = 1000 := by
        rw [hxs, sum_map_share, hbs, div_self (ne_of_gt hpos)]
        norm_num
      have hcs :
          (nts.map fun t =>
            ((JsNum.jsRound (toQ t.score * weightOf t.id / S * 1000) : ℤ) : ℚ) / 10)
          = ((nts.map fun t => toQ t.score * weightOf t.id / S * 1000).map
              fun x => ((JsNum.jsRound x : ℤ) : ℚ)).map fun x => x / 10 := by
        rw [List.map_map, List.map_map]
        rfl
      rw [hcs, sum_div_const]
      have hround := sum_jsRound_bound (nts.map fun t => toQ t.score * weightOf t.id / S * 1000)
      rw [hxsum] at hround
      have hlen : ((nts.map fun t => toQ t.score * weightOf t.id / S * 1000).length : ℚ)
          = (r.tactics.length : ℚ) := by
        rw [hrt]
        simp
      rw [hlen] at hround
      set T := ((nts.map fun t => toQ t.score * weightOf t.id / S * 1000).map
        fun x => ((JsNum.jsRound x : ℤ) : ℚ)).sum with hTdef
      have habs : |T / 10 - 100| = |T - 1000| / 10 := by
        rw [show T / 10 - 100 = (T - 1000) / 10 by ring, abs_div]
        norm_num
      rw [habs]
      have h20 : (r.tactics.length : ℚ) / 20 = ((r.tactics.length : ℚ) / 2) / 10 := by ring
      rw [h20]
      linarith

/-- C5 (witness): `witRaw`'s single tactic has a nonzero numeric score,
so its contribution values (here just `100.0`) sum to `100` within the
per-entry rounding budget. -/
theorem c5_witness :
    ∃ cs : List ℚ,
      reportOfW.tactics.map (fun t => t.contribution_pct) = cs.map .fin ∧
      |cs.sum - 100| ≤ (reportOfW.tactics.length : ℚ) / 20 :=
  c5_contribution.2.2.2 witRaw reportOfW (by with_unfolding_all rfl)
    (by with_unfolding_all decide) (by with_unfolding_all decide)

/-! ## Claim C7 — plan-limit rejection -/

/-- C7: a dispatched job whose file count exceeds its plan's configured
maximum transitions directly to `error` with code `too_many_files`; the
only external effect is that single job update — no preprocessing/OCR
call, no classification call, no report write, no deletion — and the
message is acknowledged. -/
theorem c7_too_many_files (cfg : Config) (env : Env) (jobs : String → Option JobDoc)
    (jid : String) (job : JobDoc) (hjob : jobs jid = some job)
    (hlen : job.files.length > maxForPlan cfg job.plan) :
    ∃ jf : JobFinal,
      (handleAnalyze cfg env (.good jid) jobs).job = some jf ∧
      jf.status = "error" ∧
      (∃ m, jf.error = some (.coded "too_many_files" m)) ∧
      (handleAnalyze cfg env (.good jid) jobs).calls = [.jobUpdate "error"] ∧
      (∀ p, Call.ocrCall p ∉ (handleAnalyze cfg env (.good jid) jobs).calls) ∧
      Call.classifyCall ∉ (handleAnalyze cfg env (.good jid) jobs).calls ∧
      Call.reportSet ∉ (handleAnalyze cfg env (.good jid) jobs).calls ∧
      (∀ p, Call.delCall p ∉ (handleAnalyze cfg env (.good jid) jobs).calls) ∧
      (handleAnalyze cfg env (.good jid) jobs).http = 200 ∧
      (handleAnalyze cfg env (.good jid) jobs).report = none := by
  have hres : handleAnalyze cfg env (.good jid) jobs =
      ⟨200, "ok", [.jobUpdate "error"],
       some ⟨"error",
             some (.coded "too_many_files" s!"max {maxForPlan cfg job.plan} for plan"),
             none, none⟩,
       none⟩ := by
    simp only [handleAnalyze, hjob]
    rw [if_pos hlen]
  rw [hres]
  exact ⟨_, rfl, rfl, ⟨_, rfl⟩, rfl, fun p => by simp, by simp, by simp,
    fun p => by simp, rfl, rfl⟩

/-- C7 (witness): the two-file free-plan job `jobW` against limits 1/2. -/
theorem c7_witness :
    ∃ jf : JobFinal,
      (handleAnalyze cfgSmall envOkW (.good "jobA") jobsW).job = some jf ∧
      jf.status = "error" ∧
      (∃ m, jf.error = some (.coded "too_many_files" m)) ∧
      (handleAnalyze cfgSmall envOkW (.good "jobA") jobsW).calls = [.jobUpdate "error"] ∧
      (∀ p, Call.ocrCall p ∉ (handleAnalyze cfgSmall envOkW (.good "jobA") jobsW).calls) ∧
      Call.classifyCall ∉ (handleAnalyze cfgSmall envOkW (.good "jobA") jobsW).calls ∧
      Call.reportSet ∉ (handleAnalyze cfgSmall envOkW (.good "jobA") jobsW).calls ∧
      (∀ p, Call.delCall p ∉ (handleAnalyze cfgSmall envOkW (.good "jobA") jobsW).calls) ∧
      (handleAnalyze cfgSmall envOkW (.good "jobA") jobsW).http = 200 ∧
      (handleAnalyze cfgSmall envOkW (.good "jobA") jobsW).report = none :=
  c7_too_many_files cfgSmall envOkW jobsW "jobA" jobW (by with_unfolding_all rfl)
    (by with_unfolding_all decide)

/-! ## Claim C8 — acknowledgment and truncated diagnostics -/

/-- C8: every inbound message is acknowledged with HTTP 200 whatever
the internal outcome (no message, undecodable payload, missing job,
plan-limit rejection, classification failure, normalization throw, or
success).  When the classification call throws for a decoded in-limit
job — the uncaught downstream failure of this model; per-file OCR
failures are caught and absorbed — the job is set to `error` with the
diagnostic truncated to at most 500 characters, and likewise when
`normalizeReport` itself throws.  (Document-store writes are modelled
as always taking effect; the spec places the store outside its
scope.) -/
theorem c8_ack_and_truncate :
    (∀ (cfg : Config) (env : Env) (msg : MsgCase) (jobs : String → Option JobDoc),
        (handleAnalyze cfg env msg jobs).http = 200) ∧
    (∀ (cfg : Config) (env : Env) (jobs : String → Option JobDoc) (jid : String)
        (job : JobDoc) (e : String), jobs jid = some job →
        ¬ job.files.length > maxForPlan cfg job.plan → env.classify = .error e →
        ∃ jf, (handleAnalyze cfg env (.good jid) jobs).job = some jf ∧
          jf.status = "error" ∧ jf.error = some (.plain (truncate500 e)) ∧
          (truncate500 e).length ≤ 500) ∧
    (∀ (cfg : Config) (env : Env) (jobs : String → Option JobDoc) (jid : String)
        (job : JobDoc) (raw : JVal), jobs jid = some job →
        ¬ job.files.length > maxForPlan cfg job.plan → env.classify = .ok raw →
        normalizeReport raw = none →
        ∃ jf, (handleAnalyze cfg env (.good jid) jobs).job = some jf ∧
          jf.status = "error" ∧ jf.error = some (.plain (truncate500 typeErrorMsg)) ∧
          (truncate500 typeErrorMsg).length ≤ 500) := by
  refine ⟨?_, ?_, ?_⟩
  · intro cfg env msg jobs
    cases msg with
    | noMessage => rfl
    | badData => rfl
    | good jid =>
        simp only [handleAnalyze]
        repeat' split
        all_goals rfl
  · intro cfg env jobs jid job e hjob hlen hc
    have hres : handleAnalyze cfg env (.good jid) jobs =
        ⟨200, "ok",
         [.jobUpdate "processing"] ++ job.files.map Call.ocrCall
           ++ [.classifyCall, .jobUpdate "error"],
         some ⟨"error", some (.plain (truncate500 e)), none, none⟩, none⟩ := by
      simp only [handleAnalyze, hjob]
      rw [if_neg hlen]
      simp only [hc]
    rw [hres]
    exact ⟨_, rfl, rfl, rfl, truncate500_le e⟩
  · intro cfg env jobs jid job raw hjob hlen hc hn
    have hres : handleAnalyze cfg env (.good jid) jobs =
        ⟨200, "ok",
         [.jobUpdate "processing"] ++ job.files.map Call.ocrCall
           ++ [.classifyCall, .jobUpdate "error"],
         some ⟨"error", some (.plain (truncate500 typeErrorMsg)), none, none⟩, none⟩ := by
      simp only [handleAnalyze, hjob]
      rw [if_neg hlen]
      simp only [hc, hn]
    rw [hres]
    exact ⟨_, rfl, rfl, rfl, truncate500_le typeErrorMsg⟩

/-- C8 (witness): a 600-character classification error is truncated to
500 and the message still acknowledged. -/
theorem c8_witness :
    (handleAnalyze cfgBig envFailW (.good "jobA") jobsW).http = 200 ∧
    ∃ jf, (handleAnalyze cfgBig envFailW (.good "jobA") jobsW).job = some jf ∧
      jf.status = "error" ∧
      jf.error = some (.plain (truncate500 (String.mk (List.replicate 600 'x')))) ∧
      (truncate500 (String.mk (List.replicate 600 'x'))).length ≤ 500 :=
  ⟨c8_ack_and_truncate.1 cfgBig envFailW _ jobsW,
   c8_ack_and_truncate.2.1 cfgBig envFailW jobsW "jobA" jobW
     (String.mk (List.replicate 600 'x')) (by with_unfolding_all rfl)
     (by with_unfolding_all decide) (by with_unfolding_all rfl)⟩

/-! ## Claim C9 — purge and compensation -/

theorem purge_elem_iff (d : DelOutcome) :
    (d matches .ok | .notFound) = true ↔ d ≠ .fail := by
  cases d <;> simp

theorem purgeImages_iff (env : Env) (files : List String) :
    purgeImages env files = true ↔ ∀ p ∈ files, env.del p ≠ .fail := by
  rw [purgeImages, List.all_eq_true]
  constructor
  · intro hall p hp
    exact (purge_elem_iff (env.del p)).mp (hall p hp)
  · intro hall p hp
    exact (purge_elem_iff (env.del p)).mpr (hall p hp)

/-- C9: on the happy path the job always reaches `complete`; the
report's `images_deleted` is flipped to `true` exactly when every
individual deletion succeeded or reported not-found; any other deletion
failure leaves `images_deleted` false and annotates the job with the
purge warning, without blocking completion. -/
theorem c9_purge (cfg : Config) (env : Env) (jobs : String → Option JobDoc)
    (jid : String) (job : JobDoc) (raw : JVal) (rep : Report)
    (hjob : jobs jid = some job) (hlen : ¬ job.files.length > maxForPlan cfg job.plan)
    (hc : env.classify = .ok raw) (hn : normalizeReport raw = some rep) :
    ∃ jf rd,
      (handleAnalyze cfg env (.good jid) jobs).job = some jf ∧
      (handleAnalyze cfg env (.good jid) jobs).report = some rd ∧
      jf.status = "complete" ∧
      (rd.images_deleted = true ↔ ∀ p ∈ job.files, env.del p ≠ .fail) ∧
      (purgeImages env job.files = false →
        jf.warn = some "purge_failed_lifecycle_will_cleanup" ∧ rd.images_deleted = false) ∧
      (purgeImages env job.files = true → jf.warn = none ∧ rd.images_deleted = true) := by
  cases hd : purgeImages env job.files with
  | true =>
      have hres : handleAnalyze cfg env (.good jid) jobs =
          ⟨200, "ok",
           [.jobUpdate "processing"] ++ job.files.map Call.ocrCall
             ++ [.classifyCall, .reportSet] ++ job.files.map Call.delCall
             ++ [.jobUpdate "complete"] ++ [.reportUpdate],
           some ⟨"complete", none, none, some jid⟩,
           some ⟨jid, job.userId, jid, rep, true⟩⟩ := by
        simp only [handleAnalyze, hjob]
        rw [if_neg hlen]
        simp only [hc, hn, hd]
        rfl
      rw [hres]
      refine ⟨_, _, rfl, rfl, rfl, ?_, ?_, ?_⟩
      · exact ⟨fun _ => (purgeImages_iff env job.files).mp hd, fun _ => rfl⟩
      · intro hcontra
        exact Bool.noConfusion hcontra
      · intro h2
        exact ⟨rfl, rfl⟩
  | false =>
      have hres : handleAnalyze cfg env (.good jid) jobs =
          ⟨200, "ok",
           [.jobUpdate "processing"] ++ job.files.map Call.ocrCall
             ++ [.classifyCall, .reportSet] ++ job.files.map Call.delCall
             ++ [.jobUpdate "complete"] ++ [],
           some ⟨"complete", none, some "purge_failed_lifecycle_will_cleanup", some jid⟩,
           some ⟨jid, job.userId, jid, rep, false⟩⟩ := by
        simp only [handleAnalyze, hjob]
        rw [if_neg hlen]
        simp only [hc, hn, hd]
        rfl
      rw [hres]
      refine ⟨_, _, rfl, rfl, rfl, ?_, ?_, ?_⟩
      · constructor
        · intro hcontra
          cases hcontra
        · intro hall
          exact absurd ((purgeImages_iff env job.files).mpr hall) (by rw [hd]; exact nofun)
      · intro h2
        exact ⟨rfl, rfl⟩
      · intro hcontra
        exact Bool.noConfusion hcontra

/-- C9 (witness): `jobW` with one failing deletion completes with the
warning and `images_deleted = false`. -/
theorem c9_witness :
    ∃ jf rd,
      (handleAnalyze cfgBig envDelFailW (.good "jobA") jobsW).job = some jf ∧
      (handleAnalyze cfgBig envDelFailW (.good "jobA") jobsW).report = some rd ∧
      jf.status = "complete" ∧
      (rd.images_deleted = true ↔ ∀ p ∈ jobW.files, envDelFailW.del p ≠ .fail) ∧
      (purgeImages envDelFailW jobW.files = false →
        jf.warn = some "purge_failed_lifecycle_will_cleanup" ∧ rd.images_deleted = false) ∧
      (purgeImages envDelFailW jobW.files = true → jf.warn = none ∧ rd.images_deleted = true) :=
  c9_purge cfgBig envDelFailW jobsW "jobA" jobW witRaw reportOfW
    (by with_unfolding_all rfl) (by with_unfolding_all decide)
    (by with_unfolding_all rfl) (by with_unfolding_all rfl)

end Toxella

